import Mathlib

/-!
Shallow embedding of the raft entry-storage subsystem of
`components/raftstore/src/store/entry_storage.rs`: the in-memory entry
cache (`EntryCache`), the async log-fetch coordinator, and the
`EntryStorage` facade.  Machine integers (`u64`, `usize`) are modelled as
`Nat`, with `u64::MAX` as an explicit sentinel.  Rust panics (asserts,
`unwrap`, out-of-bounds indexing) are modelled by `Option`: `none` is a
panic.  Signed byte deltas (`i64`) are modelled as `Int`.
-/

namespace Tikv

/-- `MAX_ASYNC_FETCH_TRY_CNT` from entry_storage.rs. -/
def MAX_ASYNC_FETCH_TRY_CNT : Nat := 3

/-- `SHRINK_CACHE_CAPACITY` from entry_storage.rs. -/
def SHRINK_CACHE_CAPACITY : Nat := 64

/-- Model constant for `ENTRY_MEM_SIZE = mem::size_of::<Entry>()`.  The
exact byte value is irrelevant to every claim; a fixed positive constant
stands in for the platform-dependent struct size. -/
def ENTRY_MEM_SIZE : Nat := 80

/-- Model constant for `mem::size_of::<CachedEntries>()`. -/
def CACHED_ENTRIES_MEM_SIZE : Nat := 40

/-- Modelled from the spec: `RAFT_LOG_MULTI_GET_CNT` is provided by the
`engine_traits` crate, which is not part of this repository's sources;
the spec calls it a small engine-dependent integer with a reasonable
default of 8. -/
def RAFT_LOG_MULTI_GET_CNT : Nat := 8

/-- `u64::MAX`, used by the source as the sentinel for an empty cache and
as the "unlimited" `max_size`. -/
def UMAX : Nat := 2 ^ 64 - 1

/-- A raft log entry.  `index` and `term` are the protobuf fields;
`dataCap` and `contextCap` model `bytes_capacity(&e.data)` and
`bytes_capacity(&e.context)` (allocation capacity used by the memory
accounting); `size` models `e.compute_size()` (serialized byte size used
by the `max_size` caps). -/
structure Entry where
  index : Nat
  term : Nat
  dataCap : Nat
  contextCap : Nat
  size : Nat
deriving DecidableEq, Repr

/-- Accounted payload bytes of one entry:
`bytes_capacity(&e.data) + bytes_capacity(&e.context)`. -/
def payloadSize (e : Entry) : Nat := e.dataCap + e.contextCap

/-- Sum of accounted payload bytes of a list of entries. -/
def payloadSum (l : List Entry) : Nat := (l.map payloadSize).sum

/-- Sum of serialized sizes (`compute_size`) of a list of entries. -/
def sumSizes (l : List Entry) : Nat := (l.map Entry.size).sum

/-- `CachedEntries`: a committed batch handed to the apply pipeline.
`start`/`stop` model `range.start`/`range.end`; `dangle` is the cached
dangle size stored by `trace_cached_entries` (the second component of the
`Arc<Mutex<(Vec<Entry>, usize)>>`). -/
structure CachedEntries where
  start : Nat
  stop : Nat
  ents : List Entry
  dangle : Nat
deriving DecidableEq, Repr

/-- `CachedEntries::new`: asserts the entry vector is non-empty and
derives the range from the first and last indexes. -/
def CachedEntries.make (es : List Entry) : Option CachedEntries :=
  match es.head?, es.getLast? with
  | some f, some l => some ⟨f.index, l.index + 1, es, 0⟩
  | _, _ => none

/-- `EntryCache`: contiguous in-memory window of entries plus the queue
of traced committed batches.  `cacheCap` and `traceCap` model the
capacities of the two `VecDeque`s (used by the memory accounting); `hit`
and `miss` model the `Cell<u64>` counters. -/
structure EntryCache where
  persisted : Nat
  cache : List Entry
  cacheCap : Nat
  trace : List CachedEntries
  traceCap : Nat
  hit : Nat
  miss : Nat
deriving DecidableEq, Repr

/-- Deque capacity after enough room for `len` elements has been
reserved.  Rust's exact growth policy is allocator-defined; the
accounting invariants are independent of the policy, and the model grows
exactly to fit. -/
def growCap (cap len : Nat) : Nat := max cap len

/-- `EntryCache::cache_vec_mem_size_change`. -/
def cacheVecMemChange (newCap oldCap : Nat) : Int :=
  (ENTRY_MEM_SIZE : Int) * ((newCap : Int) - (oldCap : Int))

/-- `EntryCache::trace_vec_mem_size_change`. -/
def traceVecMemChange (newCap oldCap : Nat) : Int :=
  (CACHED_ENTRIES_MEM_SIZE : Int) * ((newCap : Int) - (oldCap : Int))

/-- `EntryCache::total_mem_size`: entry payload bytes plus the slot
bytes of the cache deque and the trace deque. -/
def totalMemSize (c : EntryCache) : Int :=
  (payloadSum c.cache : Int) + cacheVecMemChange c.cacheCap 0 +
    traceVecMemChange c.traceCap 0

/-- `EntryCache::shrink_if_necessary`: shrink the cache deque to fit when
it is small relative to its capacity; returns the capacity byte delta. -/
def shrinkIfNecessary (c : EntryCache) : EntryCache × Int :=
  if c.cache.length < SHRINK_CACHE_CAPACITY ∧ SHRINK_CACHE_CAPACITY < c.cacheCap then
    ({ c with cacheCap := c.cache.length },
      cacheVecMemChange c.cache.length c.cacheCap)
  else (c, 0)

/-- Push all entries to the back of the cache deque (the final loop of
`append_impl`), growing the capacity; returns the added payload bytes. -/
def pushAll (c : EntryCache) (entries : List Entry) : EntryCache × Int :=
  let cache' := c.cache ++ entries
  ({ c with cache := cache', cacheCap := growCap c.cacheCap cache'.length },
    (payloadSum entries : Int))

/-- The truncate-then-append step of `append_impl`: drain the cache from
position `truncateTo`, subtract the dropped payload bytes, then push the
incoming entries. -/
def truncAppend (c : EntryCache) (truncateTo : Nat) (entries : List Entry) :
    EntryCache × Int :=
  let p := pushAll { c with cache := c.cache.take truncateTo } entries
  (p.1, p.2 - (payloadSum (c.cache.drop truncateTo) : Int))

/-- `EntryCache::append_impl`.  Truncates any overlapping cache tail
(panicking if the last traced batch would be truncated), panics on a
hole, then appends; returns the payload byte delta.  `none` models a
panic. -/
def appendImpl (c : EntryCache) (entries : List Entry) : Option (EntryCache × Int) :=
  match c.cache.getLast? with
  | none => some (pushAll c entries)
  | some lastE =>
    match entries.head? with
    | none => none
    | some e0 =>
      if e0.index ≤ lastE.index then
        let truncateTo := c.cache.length - (lastE.index - e0.index + 1)
        match (c.cache.drop truncateTo).head? with
        | none => none
        | some te =>
          match c.trace.getLast? with
          | some cached =>
            if cached.stop - 1 < te.index then some (truncAppend c truncateTo entries)
            else none
          | none => some (truncAppend c truncateTo entries)
      else if lastE.index + 1 < e0.index then none
      else some (pushAll c entries)

/-- `EntryCache::append`: wraps `append_impl` with capacity accounting
and a shrink pass, publishing one combined byte delta.  On an empty input
nothing is published. -/
def cacheAppend (c : EntryCache) (entries : List Entry) : Option (EntryCache × Int) :=
  if entries.isEmpty then some (c, 0)
  else
    let oldCap := c.cacheCap
    match appendImpl c entries with
    | none => none
    | some (c1, d1) =>
      let d2 := cacheVecMemChange c1.cacheCap oldCap
      let (c2, d3) := shrinkIfNecessary c1
      some (c2, d1 + d2 + d3)

/-- The trace-drain loop of `compact_to`: pop traced batches whose
`range.start` is below `idx`, subtracting their dangle bytes and
advancing `idx` to cover each popped batch's `range.end`.  Returns the
final `idx`, the remaining trace queue, and the (non-positive) dangle
byte delta. -/
def traceDrain : Nat → List CachedEntries → Nat × List CachedEntries × Int
  | idx, [] => (idx, [], 0)
  | idx, b :: rest =>
    if idx ≤ b.start then (idx, b :: rest, 0)
    else
      let r := traceDrain (max b.stop idx) rest
      (r.1, r.2.1, r.2.2 - (b.dangle : Int))

/-- The clamp at the top of `compact_to`: only persisted entries may be
compacted. -/
def clampIdx (c : EntryCache) (idx0 : Nat) : Nat :=
  if c.persisted + 1 < idx0 then c.persisted + 1 else idx0

/-- `cache.front().index`, with `u64::MAX` as the empty sentinel
(`first_index().unwrap_or(u64::MAX)`). -/
def cacheLowOf (c : EntryCache) : Nat :=
  match c.cache.head? with
  | some e => e.index
  | none => UMAX

/-- The trace-queue part of `compact_to`: run the drain loop, shrink the
trace deque when the loop broke with a batch pushed back, and account
for both.  Returns the new cache, the accumulated delta and the advanced
drain point. -/
def traceStage (c : EntryCache) (idx1 : Nat) : EntryCache × Int × Nat :=
  let r := traceDrain idx1 c.trace
  let trace' := r.2.1
  let traceCap1 :=
    if trace' ≠ [] ∧ trace'.length < SHRINK_CACHE_CAPACITY ∧
        SHRINK_CACHE_CAPACITY < c.traceCap then
      max trace'.length (min c.traceCap SHRINK_CACHE_CAPACITY)
    else c.traceCap
  ({ c with trace := trace', traceCap := traceCap1 },
    r.2.2 + traceVecMemChange traceCap1 c.traceCap,
    r.1)

/-- The cache-window part of `compact_to`: early-exit when the drain
point is at or below the window, otherwise drop entries below
`min(cache_last + 1, idx)` and shrink.  `none` models a panic (the
`mem_size_change <= 0` asserts, or an out-of-range drain). -/
def cacheStage (c1 : EntryCache) (idx : Nat) (delta1 : Int) :
    Option (EntryCache × Int × Nat) :=
  if idx ≤ cacheLowOf c1 then
    if delta1 ≤ 0 then some (c1, delta1, (-delta1).toNat) else none
  else
    match c1.cache.getLast? with
    | none => none
    | some lastE =>
      let cnt := min (lastE.index + 1) idx - cacheLowOf c1
      if c1.cache.length < cnt then none
      else
        let delta2 := delta1 - (payloadSum (c1.cache.take cnt) : Int)
        let p := shrinkIfNecessary { c1 with cache := c1.cache.drop cnt }
        let delta := delta2 + p.2
        if delta ≤ 0 then some (p.1, delta, (-delta).toNat) else none

/-- `EntryCache::compact_to`: clamp `idx` to `persisted + 1`, drain
traced batches, then drop cache entries below the (possibly advanced)
drain point.  Returns the new cache, the published byte delta, and the
freed byte count the source returns. -/
def compactTo (c : EntryCache) (idx0 : Nat) : Option (EntryCache × Int × Nat) :=
  cacheStage (traceStage c (clampIdx c idx0)).1
    (traceStage c (clampIdx c idx0)).2.2 (traceStage c (clampIdx c idx0)).2.1

/-- `EntryCache::trace_cached_entries`: compute the dangle size (payload
bytes of batch entries already below the cache window), store it in the
batch, push the batch, and publish the dangle plus the trace-deque
capacity change.  The source's `binary_search_by` over the sorted entry
vector is modelled with `findIdx?`. -/
def traceCachedEntries (c : EntryCache) (batch : CachedEntries) : Option (EntryCache × Int) :=
  match batch.ents.getLast? with
  | none => none
  | some lastE =>
    let lastIdx := lastE.index
    let cacheFront := cacheLowOf c
    let dangleLen :=
      if lastIdx < cacheFront then batch.ents.length
      else
        match batch.ents.findIdx? (fun e => e.index == cacheFront) with
        | some i => i
        | none => 0
    let size := payloadSum (batch.ents.take dangleLen)
    let batch1 := { batch with dangle := size }
    let trace' := c.trace ++ [batch1]
    let newCap := growCap c.traceCap trace'.length
    let diff := traceVecMemChange newCap c.traceCap
    some ({ c with trace := trace', traceCap := newCap }, diff + (size : Int))

/-- `EntryCache::update_persisted`. -/
def updatePersisted (c : EntryCache) (p : Nat) : EntryCache :=
  { c with persisted := p }

/-- The cache part of `EntryStorage::evict_entry_cache`: choose the drain
position (`len / 2` when `half`, `len - 1` otherwise), read the entry
index there and compact past it.  Returns the published delta. -/
def cacheEvict (c : EntryCache) (half : Bool) : Option (EntryCache × Int) :=
  if c.cache.isEmpty then some (c, 0)
  else
    let cacheLen := c.cache.length
    let drainTo := if half then cacheLen / 2 else cacheLen - 1
    match (c.cache.drop drainTo).head? with
    | none => none
    | some e =>
      match compactTo c (e.index + 1) with
      | none => none
      | some (c1, d, _) => some (c1, d)

/-- The cache constructed by `EntryCache::default()`. -/
def initialCache : EntryCache :=
  { persisted := 0, cache := [], cacheCap := 0, trace := [], traceCap := 0,
    hit := 0, miss := 0 }

/-- `raft::Result<Vec<Entry>>`, restricted to the storage errors the
subsystem produces (sections 6 and 7 of the design). -/
inductive RaftStoreErr where
  | compacted
  | unavailable
  | logTemporarilyUnavailable
  | other
deriving DecidableEq, Repr

/-- Result of a log read: the entries appended to the caller's buffer, or
a storage error. -/
inductive RaftRes where
  | ok (ents : List Entry)
  | error (e : RaftStoreErr)
deriving DecidableEq, Repr

/-- `RaftlogFetchResult`: a completed async fetch delivered by the
worker. -/
structure RaftlogFetchResult where
  ents : RaftRes
  low : Nat
  maxSize : Nat
  hitSizeLimit : Bool
  triedCnt : Nat
  term : Nat
deriving DecidableEq, Repr

/-- `RaftlogFetchState`: the per-`low` async fetch slot. -/
inductive FetchState where
  | fetching
  | fetched (res : RaftlogFetchResult)
deriving DecidableEq, Repr

/-- Lookup in the `low -> RaftlogFetchState` map (modelled as an
association list). -/
def slotGet (m : List (Nat × FetchState)) (low : Nat) : Option FetchState :=
  (m.find? (fun p => p.1 == low)).map (fun p => p.2)

/-- `HashMap::remove`. -/
def slotRemove (m : List (Nat × FetchState)) (low : Nat) : List (Nat × FetchState) :=
  m.filter (fun p => p.1 != low)

/-- `HashMap::insert` (replacing any slot at the same key). -/
def slotInsert (m : List (Nat × FetchState)) (low : Nat) (v : FetchState) :
    List (Nat × FetchState) :=
  slotRemove m low ++ [(low, v)]

/-- Test for `Some(&RaftlogFetchState::Fetching)`. -/
def isFetchingB : Option FetchState → Bool
  | some .fetching => true
  | _ => false

/-- `EntryStorage`: the facade combining the cache, the async fetch
coordinator and the local raft state.  The durable engine is modelled by
its two read operations: `engineEntry` is `RaftEngine::get_entry` and
`engineFetch low high maxSize` is the entry list appended by
`RaftEngine::fetch_entries_to` (short reads under the byte cap are
legal, so the function is part of the model's environment). -/
structure EntryStorage where
  regionId : Nat
  peerId : Nat
  engineEntry : Nat → Option Entry
  engineFetch : Nat → Nat → Nat → List Entry
  cache : EntryCache
  lastIndex : Nat
  hardTerm : Nat
  hardCommit : Nat
  appliedIndex : Nat
  truncatedIndex : Nat
  truncatedTerm : Nat
  lastTerm : Nat
  appliedTerm : Nat
  afr : List (Nat × FetchState)
  statAsyncFetch : Nat
  statSyncFetch : Nat
  statFallbackFetch : Nat
  statFetchInvalid : Nat
  statFetchUnused : Nat

/-- `EntryStorage::check_range`: `some e` is the error returned. -/
def checkRange (s : EntryStorage) (low high : Nat) : Option RaftStoreErr :=
  if high < low then some .other
  else if low ≤ s.truncatedIndex then some .compacted
  else if s.lastIndex + 1 < high then some .other
  else none

/-- `EntryStorage::update_async_fetch_res`: a `none` result is ignored
while a task is in flight; otherwise the slot is replaced or removed,
counting an unused fetch when a slot was actually dropped. -/
def updateAsyncFetchRes (s : EntryStorage) (low : Nat)
    (res : Option RaftlogFetchResult) : EntryStorage :=
  if isFetchingB (slotGet s.afr low) && res.isNone then s
  else
    match res with
    | some r => { s with afr := slotInsert s.afr low (.fetched r) }
    | none =>
      let prev := slotGet s.afr low
      { s with afr := slotRemove s.afr low,
               statFetchUnused :=
                 if prev.isSome then s.statFetchUnused + 1 else s.statFetchUnused }

/-- Modelled from the external `raft` crate: `raft::util::limit_size`
keeps the first entry unconditionally and then keeps entries while the
running serialized size stays within `max` (no-op on lists of at most one
entry). -/
def limitWalk (maxSize : Nat) : List Entry → Nat → List Entry
  | [], _ => []
  | e :: rest, acc =>
    if acc = 0 then e :: limitWalk maxSize rest (acc + e.size)
    else if acc + e.size ≤ maxSize then e :: limitWalk maxSize rest (acc + e.size)
    else []

/-- Modelled from the external `raft` crate: see `limitWalk`. -/
def limitSize (maxSize : Nat) (l : List Entry) : List Entry :=
  if l.length ≤ 1 then l else limitWalk maxSize l 0

/-- The synchronous stitch loop of `async_fetch` (`for idx in last + 1..high`),
written with explicit fuel `n = high - idx`: read each index from the
engine, return `none` (`Unavailable`) on a missing entry, stop once
adding the next entry would exceed `max_size`. -/
def stitchGo (eng : Nat → Option Entry) (maxSize : Nat) :
    Nat → Nat → Nat → Option (List Entry)
  | 0, _, _ => some []
  | n + 1, idx, fetchedSize =>
    match eng idx with
    | none => none
    | some ent =>
      if maxSize < fetchedSize + ent.size then some []
      else
        match stitchGo eng maxSize n (idx + 1) (fetchedSize + ent.size) with
        | none => none
        | some rest => some (ent :: rest)

/-- The stitch loop over the index range `[idx, high)`. -/
def stitchLoop (eng : Nat → Option Entry) (high maxSize idx fetchedSize : Nat) :
    Option (List Entry) :=
  stitchGo eng maxSize (high - idx) idx fetchedSize

/-- The entries the engine holds at consecutive indexes starting at
`idx` (fuel form), stopping at the first missing index. -/
def engRangeGo (eng : Nat → Option Entry) : Nat → Nat → List Entry
  | 0, _ => []
  | n + 1, idx =>
    match eng idx with
    | none => []
    | some e => e :: engRangeGo eng n (idx + 1)

/-- The entries the engine holds over `[lo, hi)` up to the first gap. -/
def engRange (eng : Nat → Option Entry) (lo hi : Nat) : List Entry :=
  engRangeGo eng (hi - lo) lo

/-- The tail of `async_fetch` once no stored result was usable: fall back
to a synchronous engine fetch after the retry budget, otherwise install a
`Fetching` slot, schedule a worker task and report the log temporarily
unavailable. -/
def issueFetch (s : EntryStorage) (low high maxSize triedCnt : Nat) :
    Option (EntryStorage × RaftRes) :=
  if MAX_ASYNC_FETCH_TRY_CNT ≤ triedCnt then
    some ({ s with statFallbackFetch := s.statFallbackFetch + 1 },
      .ok (s.engineFetch low high maxSize))
  else
    some ({ s with statAsyncFetch := s.statAsyncFetch + 1,
                   afr := slotInsert s.afr low .fetching },
      .error .logTemporarilyUnavailable)

/-- `EntryStorage::async_fetch`.  The returned entry list is what the
source appends to `buf` (its length is the returned `Ok(count)`);
`none` models a panic (the `assert_eq!`s and the `unwrap` on the first
entry of a stored result). -/
def asyncFetch (s : EntryStorage) (low high maxSize : Nat) :
    Option (EntryStorage × RaftRes) :=
  if isFetchingB (slotGet s.afr low) then
    some (s, .error .logTemporarilyUnavailable)
  else
    match slotGet s.afr low with
    | some (.fetched res) =>
      let s1 := { s with afr := slotRemove s.afr low }
      if res.low ≠ low then none
      else
        match res.ents with
        | .error e => some (s1, .error e)
        | .ok ents =>
          match ents.head?, ents.getLast? with
          | some e0, some eL =>
            if e0.index ≠ res.low then none
            else
              let first := e0.index
              let last := eL.index
              if high ≤ last + 1 then
                let ents1 := ents.take (high - first)
                if ents1.getLast?.map Entry.index ≠ some (high - 1) then none
                else
                  let ents2 :=
                    if maxSize < res.maxSize then limitSize maxSize ents1 else ents1
                  some (s1, .ok ents2)
              else if res.hitSizeLimit ∧ maxSize ≤ res.maxSize then
                let ents2 :=
                  if maxSize < res.maxSize then limitSize maxSize ents else ents
                some (s1, .ok ents2)
              else if high - 1 < last + RAFT_LOG_MULTI_GET_CNT ∧
                  res.triedCnt + 1 = MAX_ASYNC_FETCH_TRY_CNT then
                let fetchedSize := sumSizes ents
                if maxSize ≤ fetchedSize then
                  some (s1, .ok (limitSize maxSize ents))
                else
                  match stitchLoop s.engineEntry high maxSize (last + 1) fetchedSize with
                  | none => some (s1, .error .unavailable)
                  | some extra => some (s1, .ok (ents ++ extra))
              else
                issueFetch
                  { s1 with statFetchInvalid := s1.statFetchInvalid + 1 }
                  low high maxSize (res.triedCnt + 1)
          | _, _ => none
    | _ => issueFetch s low high maxSize 1

/-- The `take_while` scan of `EntryCache::fetch_entries_to`, walking the
cache slice from `start_idx`.  `endIdx` and `fetched` mirror the
mutable `end_idx` and `fetched_size`; the contiguity `assert_eq!` is a
panic (`none`).  Returns the final `(end_idx, fetched_size)`. -/
def fetchWalk (maxSize limitIdx cacheLow : Nat) :
    List Entry → Nat → Nat → Option (Nat × Nat)
  | [], endIdx, fetched => some (endIdx, fetched)
  | e :: rest, endIdx, fetched =>
    if e.index ≠ endIdx + cacheLow then none
    else
      let m := e.size
      let f := fetched + m
      if f = m then
        if f ≤ maxSize ∧ endIdx + 1 < limitIdx then
          fetchWalk maxSize limitIdx cacheLow rest (endIdx + 1) f
        else some (endIdx + 1, f)
      else if f ≤ maxSize then
        if endIdx + 1 < limitIdx then
          fetchWalk maxSize limitIdx cacheLow rest (endIdx + 1) f
        else some (endIdx + 1, f)
      else some (endIdx, f)

/-- `EntryCache::fetch_entries_to`: returns the entries extended onto the
caller's buffer from the cache range `[lo, hi)` under the byte cap, with
`fetched` bytes already accumulated.  `none` models a panic (empty
cache, `checked_sub` unwraps, or the final range/size assert). -/
def fetchEntriesTo (c : EntryCache) (lo hi fetched maxSize : Nat) :
    Option (List Entry) :=
  if hi ≤ lo then some []
  else
    match c.cache.head? with
    | none => none
    | some front =>
      let cacheLow := front.index
      if lo < cacheLow then none
      else if hi < cacheLow then none
      else
        let startIdx := lo - cacheLow
        let limitIdx := hi - cacheLow
        match fetchWalk maxSize limitIdx cacheLow (c.cache.drop startIdx) startIdx fetched with
        | none => none
        | some (endIdx, f) =>
          if endIdx = limitIdx ∨ maxSize < f then
            some ((c.cache.drop startIdx).take (endIdx - startIdx))
          else none

/-- Increment of the cache `miss` counter performed by `entries`. -/
def missInc (s : EntryStorage) : EntryStorage :=
  { s with cache := { s.cache with miss := s.cache.miss + 1 } }

/-- Increment of the cache `hit` counter performed by `entries`. -/
def hitInc (s : EntryStorage) : EntryStorage :=
  { s with cache := { s.cache with hit := s.cache.hit + 1 } }

/-- The below-cache fetch performed by `entries`: async through the
coordinator when the context allows it, otherwise a synchronous engine
read (counted in `sync_fetch`). -/
def prefixFetch (s : EntryStorage) (low high maxSize : Nat) (canAsync : Bool) :
    Option (EntryStorage × RaftRes) :=
  if canAsync then asyncFetch s low high maxSize
  else
    some ({ s with statSyncFetch := s.statSyncFetch + 1 },
      .ok (s.engineFetch low high maxSize))

/-- The cache tail of `entries`: serve `[beginIdx, high)` from the cache
on top of the already fetched prefix `pre`. -/
def entriesTail (s : EntryStorage) (pre : List Entry) (beginIdx high maxSize : Nat) :
    Option (EntryStorage × RaftRes) :=
  let s1 := hitInc s
  match fetchEntriesTo s1.cache beginIdx high (sumSizes pre) maxSize with
  | none => none
  | some extra => some (s1, .ok (pre ++ extra))

/-- `EntryStorage::entries`. -/
def entriesFn (s : EntryStorage) (low high maxSize : Nat) (canAsync : Bool) :
    Option (EntryStorage × RaftRes) :=
  match checkRange s low high with
  | some e => some (s, .error e)
  | none =>
    if low = high then some (s, .ok [])
    else
      let cacheLow := cacheLowOf s.cache
      if high ≤ cacheLow then prefixFetch (missInc s) low high maxSize canAsync
      else if low < cacheLow then
        match prefixFetch (missInc s) low cacheLow maxSize canAsync with
        | none => none
        | some (s1, .error e) => some (s1, .error e)
        | some (s1, .ok pre) =>
          if pre.length < cacheLow - low then some (s1, .ok pre)
          else entriesTail s1 pre cacheLow high maxSize
      else entriesTail s [] low high maxSize

/-- The write task `EntryStorage::append` fills in: the entries to
persist and the `cut_logs` deletion directive. -/
structure WriteTaskModel where
  entries : List Entry
  cutLogs : Option (Nat × Nat)
deriving DecidableEq, Repr

/-- `EntryStorage::append`: install the entries in the cache (truncating
a diverging tail), stage them in the write task with the cut directive
`(new_last_index + 1, prev_last_index + 1)`, and update
`last_index`/`last_term`. -/
def storageAppend (s : EntryStorage) (entries : List Entry) :
    Option (EntryStorage × WriteTaskModel) :=
  if entries.isEmpty then some (s, ⟨[], none⟩)
  else
    match entries.getLast? with
    | none => none
    | some eL =>
      let prevLastIndex := s.lastIndex
      match cacheAppend s.cache entries with
      | none => none
      | some (c1, _) =>
        some ({ s with cache := c1, lastIndex := eL.index, lastTerm := eL.term },
          ⟨entries, some (eL.index + 1, prevLastIndex + 1)⟩)

/-- `EntryStorage::evict_entry_cache`. -/
def evictEntryCache (s : EntryStorage) (half : Bool) : Option EntryStorage :=
  match cacheEvict s.cache half with
  | none => none
  | some (c1, _) => some { s with cache := c1 }

/-- The cache mutations of section 4.B, as an operation language for the
memory-conservation claim. -/
inductive CacheOp where
  | append (es : List Entry)
  | compact (idx : Nat)
  | traceOp (es : List Entry)
  | evictOp (half : Bool)
  | setPersisted (p : Nat)

/-- Apply one cache operation; the `Int` is the byte delta published by
its single `flush_mem_size_change` (zero when the operation publishes
nothing). -/
def applyOp (c : EntryCache) : CacheOp → Option (EntryCache × Int)
  | .append es => cacheAppend c es
  | .compact idx => (compactTo c idx).map (fun r => (r.1, r.2.1))
  | .traceOp es =>
    match CachedEntries.make es with
    | none => none
    | some b => traceCachedEntries c b
  | .evictOp half => cacheEvict c half
  | .setPersisted p => some (updatePersisted c p, 0)

/-- Run a sequence of cache operations, accumulating the published byte
deltas. -/
def runOps (c : EntryCache) : List CacheOp → Option (EntryCache × Int)
  | [] => some (c, 0)
  | op :: rest =>
    match applyOp c op with
    | none => none
    | some (c1, d) =>
      match runOps c1 rest with
      | none => none
      | some (c2, acc) => some (c2, d + acc)

/-- Dangle bytes of the batches currently in the trace queue. -/
def dangleSum (l : List CachedEntries) : Nat := (l.map CachedEntries.dangle).sum

/-- The list holds entries with consecutive indexes `i, i + 1, ...`. -/
def contigFrom : Nat → List Entry → Bool
  | _, [] => true
  | i, e :: rest => e.index == i && contigFrom (i + 1) rest

/-- The cache-window invariant: entries are consecutive by index. -/
def contiguousB : List Entry → Bool
  | [] => true
  | e :: rest => contigFrom e.index (e :: rest)

/-- A concrete storage with empty cache, empty coordinator and an empty
engine, used by witnesses and counterexamples. -/
def emptyStorage : EntryStorage :=
  { regionId := 1, peerId := 1,
    engineEntry := fun _ => none,
    engineFetch := fun _ _ _ => [],
    cache := initialCache, lastIndex := 0, hardTerm := 0, hardCommit := 0,
    appliedIndex := 0, truncatedIndex := 0, truncatedTerm := 0,
    lastTerm := 0, appliedTerm := 0, afr := [],
    statAsyncFetch := 0, statSyncFetch := 0, statFallbackFetch := 0,
    statFetchInvalid := 0, statFetchUnused := 0 }

theorem contigFrom_cons {i : Nat} {e : Entry} {l : List Entry} :
    contigFrom i (e :: l) = true ↔ e.index = i ∧ contigFrom (i + 1) l = true := by
  simp [contigFrom]

theorem contigFrom_bounds {i : Nat} {l : List Entry} (h : contigFrom i l = true)
    {e : Entry} (he : e ∈ l) : i ≤ e.index ∧ e.index < i + l.length := by
  induction l generalizing i with
  | nil => cases he
  | cons a rest ih =>
    rw [contigFrom_cons] at h
    rcases List.mem_cons.mp he with rfl | hmem
    · have h1 := h.1
      simp only [List.length_cons]
      omega
    · have := ih h.2 hmem
      simp only [List.length_cons]
      omega

theorem contigFrom_take {i : Nat} {l : List Entry} (h : contigFrom i l = true)
    (n : Nat) : contigFrom i (l.take n) = true := by
  induction l generalizing i n with
  | nil => simp [contigFrom]
  | cons a rest ih =>
    cases n with
    | zero => simp [contigFrom]
    | succ m =>
      rw [contigFrom_cons] at h
      rw [List.take_succ_cons, contigFrom_cons]
      exact ⟨h.1, ih h.2 m⟩

theorem contigFrom_drop {i : Nat} {l : List Entry} (h : contigFrom i l = true)
    (n : Nat) : contigFrom (i + n) (l.drop n) = true := by
  induction l generalizing i n with
  | nil => simp [contigFrom]
  | cons a rest ih =>
    cases n with
    | zero => simpa using h
    | succ m =>
      rw [contigFrom_cons] at h
      have h3 := ih h.2 m
      rw [List.drop_succ_cons]
      have h2 : i + (m + 1) = i + 1 + m := by omega
      rw [h2]
      exact h3

theorem contigFrom_getElem {i : Nat} {l : List Entry} (h : contigFrom i l = true)
    {k : Nat} {e : Entry} (he : l[k]? = some e) : e.index = i + k := by
  induction l generalizing i k with
  | nil => simp at he
  | cons a rest ih =>
    rw [contigFrom_cons] at h
    cases k with
    | zero =>
      simp only [List.getElem?_cons_zero, Option.some.injEq] at he
      subst he
      have h1 := h.1
      omega
    | succ m =>
      simp only [List.getElem?_cons_succ] at he
      have := ih h.2 he
      omega

theorem contigFrom_getLast {i : Nat} {l : List Entry} (h : contigFrom i l = true)
    {e : Entry} (he : l.getLast? = some e) : e.index + 1 = i + l.length := by
  have hg : l[l.length - 1]? = some e := by
    rw [← List.getLast?_eq_getElem?]
    exact he
  have hlen : l ≠ [] := by
    intro hnil
    subst hnil
    simp at he
  have hpos : 0 < l.length := List.length_pos.mpr hlen
  have := contigFrom_getElem h hg
  omega

theorem contigFrom_append {i : Nat} {a b : List Entry}
    (ha : contigFrom i a = true) (hb : contigFrom (i + a.length) b = true) :
    contigFrom i (a ++ b) = true := by
  induction a generalizing i with
  | nil => simpa using hb
  | cons x rest ih =>
    rw [contigFrom_cons] at ha
    rw [List.cons_append, contigFrom_cons]
    refine ⟨ha.1, ih ha.2 ?_⟩
    simpa [Nat.add_comm, Nat.add_assoc, Nat.add_left_comm] using hb

theorem contigFrom_take_eq_filter {i : Nat} {l : List Entry}
    (h : contigFrom i l = true) (n : Nat) :
    l.take n = l.filter (fun e => decide (e.index < i + n)) := by
  induction l generalizing i n with
  | nil => simp
  | cons a rest ih =>
    rw [contigFrom_cons] at h
    cases n with
    | zero =>
      rw [List.take_zero]
      symm
      rw [List.filter_eq_nil_iff]
      intro e he
      have := contigFrom_bounds (contigFrom_cons.mpr h) he
      simpa using this.1
    | succ m =>
      have h1 : (decide (a.index < i + (m + 1))) = true := by
        have := h.1
        simp
        omega
      rw [List.take_succ_cons, List.filter_cons, h1]
      simp only [ih h.2 m]
      have h2 : i + 1 + m = i + (m + 1) := by omega
      rw [h2]
      simp

theorem isFetchingB_true_iff (o : Option FetchState) :
    isFetchingB o = true ↔ o = some .fetching := by
  cases o with
  | none => simp [isFetchingB]
  | some f => cases f <;> simp [isFetchingB]

theorem slotGet_slotRemove (m : List (Nat × FetchState)) (low : Nat) :
    slotGet (slotRemove m low) low = none := by
  have hfind : (slotRemove m low).find? (fun p => p.1 == low) = none := by
    rw [List.find?_eq_none]
    intro x hx
    have hmem := List.of_mem_filter hx
    simpa using hmem
  simp [slotGet, hfind]

/-- C9 (amended): `update_async_fetch_res(low, None)` leaves the state
unchanged when the slot at `low` is `Fetching`; otherwise it removes any
slot stored at `low`, and increments `fetch_unused` only when a slot was
actually present (an absent slot leaves the counter unchanged). -/
theorem update_async_fetch_res_none_behavior (s : EntryStorage) (low : Nat) :
    (updateAsyncFetchRes s low none).statFetchUnused =
      s.statFetchUnused +
        (if ((slotGet s.afr low).isSome && !isFetchingB (slotGet s.afr low)) = true
         then 1 else 0) ∧
    slotGet (updateAsyncFetchRes s low none).afr low =
      (if isFetchingB (slotGet s.afr low) = true then some FetchState.fetching
       else none) := by
  unfold updateAsyncFetchRes
  cases hf : isFetchingB (slotGet s.afr low) with
  | true =>
    have heq := (isFetchingB_true_iff _).mp hf
    rw [heq]
    simp [isFetchingB, heq]
  | false =>
    simp only [hf, Option.isNone_none, Bool.and_true, Bool.false_eq_true, if_false,
      Bool.not_false]
    constructor
    · cases hs : (slotGet s.afr low).isSome <;> simp [hs]
    · simp [slotGet_slotRemove]

/-- C9 counterexample: with no slot stored at `low = 7`,
`update_async_fetch_res(7, None)` does not increment `fetch_unused`,
contrary to the claim that the else-branch always increments it. -/
theorem update_async_fetch_res_none_absent_cex :
    slotGet emptyStorage.afr 7 = none ∧
    ¬ ((updateAsyncFetchRes emptyStorage 7 none).statFetchUnused
        = emptyStorage.statFetchUnused + 1) := by
  constructor
  · rfl
  · have h0 : (updateAsyncFetchRes emptyStorage 7 none).statFetchUnused = 0 := rfl
    have h1 : emptyStorage.statFetchUnused = 0 := rfl
    rw [h0, h1]
    simp

/-- C10: consuming a `Fetched` slot in `async_fetch` asserts that the
stored result's `low` equals the requested `low` and, for an `Ok`
result, that the entry vector is non-empty with first index `low`; a
violation (in particular an `Ok` result with an empty vector) is a
panic, not an error return or a retry. -/
theorem async_fetch_consume_asserts (s : EntryStorage) (low high maxSize : Nat)
    (res : RaftlogFetchResult)
    (hslot : slotGet s.afr low = some (.fetched res))
    (hbad : res.low ≠ low ∨ res.ents = RaftRes.ok [] ∨
      (∃ e t, res.ents = RaftRes.ok (e :: t) ∧ e.index ≠ res.low)) :
    asyncFetch s low high maxSize = none := by
  unfold asyncFetch
  rw [hslot]
  simp only [isFetchingB, Bool.false_eq_true, if_false]
  by_cases hlow : res.low ≠ low
  · rw [if_pos hlow]
  · rw [if_neg hlow]
    rcases hbad with hbad | hbad | ⟨e, t, hok, hne⟩
    · exact absurd hbad hlow
    · rw [hbad]
      simp
    · rw [hok]
      have hlast : ((e :: t).getLast?).isSome := by
        rw [List.getLast?_isSome]
        simp
      cases hgl : (e :: t).getLast? with
      | none => rw [hgl] at hlast; simp at hlast
      | some eL =>
        simp only [hgl, List.head?_cons]
        rw [if_pos hne]

/-- Storage whose coordinator holds a `Fetched` slot at `low = 3` whose
result is `Ok` with an empty entry vector. -/
def storageWithEmptyRes : EntryStorage :=
  { emptyStorage with
    afr := [(3, .fetched ⟨RaftRes.ok [], 3, UMAX, false, 1, 1⟩)] }

theorem async_fetch_consume_asserts_witness :
    slotGet storageWithEmptyRes.afr 3
        = some (.fetched ⟨RaftRes.ok [], 3, UMAX, false, 1, 1⟩) ∧
      asyncFetch storageWithEmptyRes 3 7 UMAX = none :=
  ⟨rfl, async_fetch_consume_asserts storageWithEmptyRes 3 7 UMAX _ rfl
    (Or.inr (Or.inl rfl))⟩

theorem traceDrain_idx_ge (idx : Nat) (l : List CachedEntries) :
    idx ≤ (traceDrain idx l).1 := by
  induction l generalizing idx with
  | nil => simp [traceDrain]
  | cons b rest ih =>
    unfold traceDrain
    split
    · exact Nat.le_refl idx
    · have h1 := ih (max b.stop idx)
      have h2 : idx ≤ max b.stop idx := Nat.le_max_right _ _
      exact Nat.le_trans h2 h1

theorem traceDrain_delta_nonpos (idx : Nat) (l : List CachedEntries) :
    (traceDrain idx l).2.2 ≤ 0 := by
  induction l generalizing idx with
  | nil => simp [traceDrain]
  | cons b rest ih =>
    unfold traceDrain
    split
    · simp
    · have h1 := ih (max b.stop idx)
      have h2 : (0 : Int) ≤ (b.dangle : Int) := Int.ofNat_nonneg _
      simp only []
      omega

theorem shrink_cache_eq (c : EntryCache) :
    (shrinkIfNecessary c).1.cache = c.cache := by
  unfold shrinkIfNecessary
  split <;> rfl

theorem shrink_trace_eq (c : EntryCache) :
    (shrinkIfNecessary c).1.trace = c.trace := by
  unfold shrinkIfNecessary
  split <;> rfl

theorem shrink_persisted_eq (c : EntryCache) :
    (shrinkIfNecessary c).1.persisted = c.persisted := by
  unfold shrinkIfNecessary
  split <;> rfl

theorem shrink_traceCap_eq (c : EntryCache) :
    (shrinkIfNecessary c).1.traceCap = c.traceCap := by
  unfold shrinkIfNecessary
  split <;> rfl

theorem cacheVecMemChange_nonpos {a b : Nat} (h : a ≤ b) :
    cacheVecMemChange a b ≤ 0 := by
  unfold cacheVecMemChange
  have h1 : (a : Int) - (b : Int) ≤ 0 := by omega
  have h2 : (0 : Int) ≤ (ENTRY_MEM_SIZE : Int) := Int.ofNat_nonneg _
  exact mul_nonpos_of_nonneg_of_nonpos h2 h1

theorem traceVecMemChange_nonpos {a b : Nat} (h : a ≤ b) :
    traceVecMemChange a b ≤ 0 := by
  unfold traceVecMemChange
  have h1 : (a : Int) - (b : Int) ≤ 0 := by omega
  have h2 : (0 : Int) ≤ (CACHED_ENTRIES_MEM_SIZE : Int) := Int.ofNat_nonneg _
  exact mul_nonpos_of_nonneg_of_nonpos h2 h1

theorem shrink_delta_nonpos (c : EntryCache) : (shrinkIfNecessary c).2 ≤ 0 := by
  unfold shrinkIfNecessary
  split
  · next h => exact cacheVecMemChange_nonpos (Nat.le_of_lt (by omega))
  · exact le_refl 0

theorem contiguousB_head {l : List Entry} {e0 : Entry}
    (h : contiguousB l = true) (hh : l.head? = some e0) :
    contigFrom e0.index l = true := by
  cases l with
  | nil => simp at hh
  | cons a rest =>
    simp only [List.head?_cons, Option.some.injEq] at hh
    subst hh
    exact h

theorem traceStage_cache (c : EntryCache) (i : Nat) :
    (traceStage c i).1.cache = c.cache := rfl

theorem traceStage_persisted (c : EntryCache) (i : Nat) :
    (traceStage c i).1.persisted = c.persisted := rfl

theorem traceStage_cacheCap (c : EntryCache) (i : Nat) :
    (traceStage c i).1.cacheCap = c.cacheCap := rfl

theorem traceStage_trace (c : EntryCache) (i : Nat) :
    (traceStage c i).1.trace = (traceDrain i c.trace).2.1 := rfl

theorem traceStage_idx (c : EntryCache) (i : Nat) :
    (traceStage c i).2.2 = (traceDrain i c.trace).1 := rfl

theorem traceStage_idx_ge (c : EntryCache) (i : Nat) :
    i ≤ (traceStage c i).2.2 := traceDrain_idx_ge i c.trace

theorem traceStage_traceCap_le (c : EntryCache) (i : Nat) :
    (traceStage c i).1.traceCap ≤ c.traceCap := by
  unfold traceStage
  simp only []
  split
  · next hcond =>
    have h64 : min c.traceCap SHRINK_CACHE_CAPACITY = SHRINK_CACHE_CAPACITY := by
      have := hcond.2.2
      omega
    rw [h64]
    have := hcond.2.2
    simp only [ge_iff_le, max_le_iff]
    constructor
    · have := hcond.2.1
      omega
    · omega
  · exact le_refl _

theorem traceStage_delta_nonpos (c : EntryCache) (i : Nat) :
    (traceStage c i).2.1 ≤ 0 := by
  have h1 := traceDrain_delta_nonpos i c.trace
  have h2 := traceVecMemChange_nonpos (traceStage_traceCap_le c i)
  have h3 : (traceStage c i).1.traceCap =
      (if (traceDrain i c.trace).2.1 ≠ [] ∧
          (traceDrain i c.trace).2.1.length < SHRINK_CACHE_CAPACITY ∧
          SHRINK_CACHE_CAPACITY < c.traceCap then
        max (traceDrain i c.trace).2.1.length (min c.traceCap SHRINK_CACHE_CAPACITY)
      else c.traceCap) := rfl
  show (traceDrain i c.trace).2.2 +
      traceVecMemChange ((traceStage c i).1.traceCap) c.traceCap ≤ 0
  omega

theorem cacheLowOf_eq {c : EntryCache} {e : Entry} (h : c.cache.head? = some e) :
    cacheLowOf c = e.index := by
  unfold cacheLowOf
  rw [h]

theorem cacheStage_clears (c1 : EntryCache) (idx : Nat) (delta1 : Int)
    (e0 eL : Entry)
    (hh : c1.cache.head? = some e0)
    (hlast : c1.cache.getLast? = some eL)
    (hlen : eL.index + 1 = e0.index + c1.cache.length)
    (hpos : 0 < c1.cache.length)
    (hidx : eL.index + 1 ≤ idx)
    (hd : delta1 ≤ 0) :
    (cacheStage c1 idx delta1).map (fun r => r.1.cache) = some [] := by
  unfold cacheStage
  rw [cacheLowOf_eq hh]
  rw [if_neg (by omega)]
  rw [hlast]
  simp only []
  rw [Nat.min_eq_left (by omega)]
  have hcnt : eL.index + 1 - e0.index = c1.cache.length := by omega
  rw [hcnt]
  rw [if_neg (by omega)]
  have hpay : (0 : Int) ≤ (payloadSum (c1.cache.take c1.cache.length) : Int) :=
    Int.ofNat_nonneg _
  have hshr := shrink_delta_nonpos { c1 with cache := c1.cache.drop c1.cache.length }
  rw [if_pos (by omega)]
  simp [shrink_cache_eq]

/-- After the trace drain, `compact_to` with a drain point above the last
cache index (and within the persisted clamp) drops the entire cache
window. -/
theorem compactTo_clears (c : EntryCache) (idx : Nat) (e0 eL : Entry)
    (hcontig : contiguousB c.cache = true)
    (hh : c.cache.head? = some e0)
    (hlast : c.cache.getLast? = some eL)
    (hidx : eL.index + 1 ≤ idx)
    (hclamp : idx ≤ c.persisted + 1) :
    (compactTo c idx).map (fun r => r.1.cache) = some [] := by
  have hcf : contigFrom e0.index c.cache = true := contiguousB_head hcontig hh
  have hne : c.cache ≠ [] := by
    intro hnil
    rw [hnil] at hh
    simp at hh
  have hpos : 0 < c.cache.length := List.length_pos.mpr hne
  have hlen : eL.index + 1 = e0.index + c.cache.length :=
    contigFrom_getLast hcf hlast
  unfold compactTo
  have hcl : clampIdx c idx = idx := by
    unfold clampIdx
    rw [if_neg (by omega)]
  rw [hcl]
  show Option.map (fun r => r.1.cache)
    (cacheStage (traceStage c idx).1 (traceStage c idx).2.2 (traceStage c idx).2.1)
      = some []
  have htc : (traceStage c idx).1.cache = c.cache := traceStage_cache c idx
  have hge : idx ≤ (traceStage c idx).2.2 := traceStage_idx_ge c idx
  have hd1 : (traceStage c idx).2.1 ≤ 0 := traceStage_delta_nonpos c idx
  exact cacheStage_clears (traceStage c idx).1 (traceStage c idx).2.2
    (traceStage c idx).2.1 e0 eL (by rw [htc]; exact hh) (by rw [htc]; exact hlast)
    (by rw [htc]; exact hlen) (by rw [htc]; exact hpos) (by omega) hd1

/-- A plain test entry: zero payload capacity and serialized size 1. -/
def entC (i t : Nat) : Entry := ⟨i, t, 0, 0, 1⟩

/-- Storage holding cache entries at indexes 3, 4, 5 with all of them
persisted. -/
def storageC1 : EntryStorage :=
  { emptyStorage with
    cache := { initialCache with
      persisted := 5, cache := [entC 3 3, entC 4 4, entC 5 4], cacheCap := 3 },
    lastIndex := 5 }

/-- C1 (amended): `evict_entry_cache` on a non-empty cache drains to the
entry at deque position `len / 2` when `half` and `len - 1` otherwise,
and invokes `compact_to(entry_at_position.index + 1)`.  In the non-half
case the chosen entry is the one at `cache_high` itself, so
`compact_to(cache_high + 1)` is invoked and, whenever the persisted
clamp permits (`cache_high <= persisted`), the cache is emptied
completely — the entry at `cache_high` does NOT remain. -/
theorem evict_entry_cache_drain (s : EntryStorage) (half : Bool) (ed : Entry)
    (hne : s.cache.cache ≠ [])
    (hd : (s.cache.cache.drop
        (if half then s.cache.cache.length / 2 else s.cache.cache.length - 1)).head?
      = some ed) :
    evictEntryCache s half
        = (compactTo s.cache (ed.index + 1)).map (fun r => { s with cache := r.1 }) ∧
      (half = false → contiguousB s.cache.cache = true →
        ∀ eL, s.cache.cache.getLast? = some eL → eL.index ≤ s.cache.persisted →
          (evictEntryCache s half).map (fun s' => s'.cache.cache) = some []) := by
  have hemp : s.cache.cache.isEmpty = false := by
    cases hcc : s.cache.cache with
    | nil => exact absurd hcc hne
    | cons a t => rfl
  have h1 : evictEntryCache s half
      = (compactTo s.cache (ed.index + 1)).map (fun r => { s with cache := r.1 }) := by
    unfold evictEntryCache cacheEvict
    simp only [hemp, Bool.false_eq_true, if_false, hd]
    cases hct : compactTo s.cache (ed.index + 1) with
    | none => simp
    | some r => simp
  refine ⟨h1, ?_⟩
  intro hhalf hcontig eL hlast hpers
  subst hhalf
  have hLe : eL = ed := by
    have hg : s.cache.cache.getLast? = s.cache.cache[s.cache.cache.length - 1]? :=
      List.getLast?_eq_getElem? _
    rw [List.head?_drop] at hd
    simp only [Bool.false_eq_true, if_false] at hd
    rw [hg] at hlast
    rw [hd] at hlast
    exact ((Option.some.injEq _ _).mp hlast).symm
  obtain ⟨e0, hh⟩ : ∃ e0, s.cache.cache.head? = some e0 := by
    cases hcc : s.cache.cache with
    | nil => exact absurd hcc hne
    | cons a t => exact ⟨a, rfl⟩
  have h2 := compactTo_clears s.cache (ed.index + 1) e0 eL hcontig hh hlast
    (by rw [hLe]) (by rw [hLe] at hpers; omega)
  rw [h1]
  cases hct : compactTo s.cache (ed.index + 1) with
  | none => rw [hct] at h2; simp at h2
  | some r =>
    rw [hct] at h2
    simp only [Option.map_some'] at h2 ⊢
    simpa using h2

theorem evict_entry_cache_drain_witness :
    storageC1.cache.cache ≠ [] ∧
      (storageC1.cache.cache.drop
          (if false then storageC1.cache.cache.length / 2
           else storageC1.cache.cache.length - 1)).head? = some (entC 5 4) ∧
      (evictEntryCache storageC1 false).map (fun s' => s'.cache.cache) = some [] := by
  refine ⟨by decide, rfl, ?_⟩
  exact (evict_entry_cache_drain storageC1 false (entC 5 4) (by decide) rfl).2
    rfl (by decide) (entC 5 4) rfl (by decide)

theorem clampIdx_le (c : EntryCache) (i : Nat) : clampIdx c i ≤ c.persisted + 1 ∨
    clampIdx c i = i := by
  unfold clampIdx
  split
  · left; exact le_refl _
  · right; rfl

theorem clampIdx_le_of_requested (c : EntryCache) (i : Nat) :
    clampIdx c i ≤ c.persisted + 1 := by
  unfold clampIdx
  split
  · exact le_refl _
  · next h => omega

theorem traceDrain_idx_le {B : Nat} {l : List CachedEntries} {idx : Nat}
    (hB : ∀ b ∈ l, b.stop ≤ B) (hidx : idx ≤ B) :
    (traceDrain idx l).1 ≤ B := by
  induction l generalizing idx with
  | nil => simpa [traceDrain] using hidx
  | cons b rest ih =>
    unfold traceDrain
    split
    · exact hidx
    · have hb : b.stop ≤ B := hB b (List.mem_cons_self b rest)
      have hrest : ∀ x ∈ rest, x.stop ≤ B := fun x hx => hB x (List.mem_cons_of_mem b hx)
      exact ih hrest (by omega)

/-- C2 (amended): `compact_to(idx)` clamps the requested `idx` to
`persisted + 1` before touching the cache, but draining the trace queue
may advance the drain point further, to a popped batch's `range.end`.
Consequently the persisted-safety guarantee holds whenever every traced
batch ends at or below `persisted + 1` (in particular with an empty
trace queue): no cache entry with index above `persisted` at the moment
of the call is removed. -/
theorem compact_to_persisted_safe (c : EntryCache) (idx0 : Nat)
    (c' : EntryCache) (d : Int) (f : Nat)
    (hcontig : contiguousB c.cache = true)
    (htr : ∀ b ∈ c.trace, b.stop ≤ c.persisted + 1)
    (hc : compactTo c idx0 = some (c', d, f)) :
    ∀ e ∈ c.cache, c.persisted < e.index → e ∈ c'.cache := by
  intro e he hgt
  have hidxF : (traceStage c (clampIdx c idx0)).2.2 ≤ c.persisted + 1 := by
    rw [traceStage_idx]
    exact traceDrain_idx_le htr (clampIdx_le_of_requested c idx0)
  have htc : (traceStage c (clampIdx c idx0)).1.cache = c.cache :=
    traceStage_cache c (clampIdx c idx0)
  unfold compactTo cacheStage at hc
  split at hc
  · -- early exit: the cache window is untouched
    split at hc
    · cases hc
      rw [htc]
      exact he
    · cases hc
  · next hlt =>
    rw [htc] at hc
    cases hgl : c.cache.getLast? with
    | none => rw [hgl] at hc; cases hc
    | some lastE =>
      rw [hgl] at hc
      simp only [] at hc
      split at hc
      · cases hc
      · next hlen =>
        split at hc
        · cases hc
          rw [shrink_cache_eq]
          simp only []
          -- membership in the kept suffix
          obtain ⟨e0, hh⟩ : ∃ e0, c.cache.head? = some e0 := by
            cases hcc : c.cache with
            | nil => rw [hcc] at he; cases he
            | cons a t => exact ⟨a, rfl⟩
          have hcf : contigFrom e0.index c.cache = true := contiguousB_head hcontig hh
          have hlowEq : cacheLowOf (traceStage c (clampIdx c idx0)).1 = e0.index := by
            apply cacheLowOf_eq
            rw [htc]
            exact hh
          rw [hlowEq] at hlt ⊢
          have hlg : lastE.index + 1 = e0.index + c.cache.length :=
            contigFrom_getLast hcf hgl
          set cnt := min (lastE.index + 1) (traceStage c (clampIdx c idx0)).2.2 - e0.index
            with hcnt
          have hsplit := List.take_append_drop cnt c.cache
          have hmem : e ∈ c.cache.take cnt ++ c.cache.drop cnt := by
            rw [hsplit]; exact he
          rcases List.mem_append.mp hmem with htk | hdr
          · -- impossible: entries in the dropped prefix are below the drain point
            exfalso
            have hb := contigFrom_bounds (contigFrom_take hcf cnt) htk
            have hlentk : (c.cache.take cnt).length ≤ cnt := by
              simp
            have hminle : min (lastE.index + 1) (traceStage c (clampIdx c idx0)).2.2
                ≤ (traceStage c (clampIdx c idx0)).2.2 := Nat.min_le_right _ _
            have hpos : 0 < c.cache.length := by
              apply List.length_pos.mpr
              intro h0
              rw [h0] at he
              cases he
            have hmingt : e0.index < min (lastE.index + 1)
                (traceStage c (clampIdx c idx0)).2.2 := by omega
            omega
          · exact hdr
        · cases hc

/-- The cache of scenario S2: entries 5..9, `persisted = 5`, no traced
batches. -/
def cacheC2w : EntryCache :=
  { initialCache with
    persisted := 5,
    cache := [entC 5 6, entC 6 7, entC 7 8, entC 8 7, entC 9 7], cacheCap := 5 }

/-- The S2 cache after `compact_to(7)` (clamped to 6). -/
def cacheC2wAfter : EntryCache :=
  { initialCache with
    persisted := 5,
    cache := [entC 6 7, entC 7 8, entC 8 7, entC 9 7], cacheCap := 5 }

theorem compact_to_persisted_safe_witness :
    contiguousB cacheC2w.cache = true ∧
      (∀ b ∈ cacheC2w.trace, b.stop ≤ cacheC2w.persisted + 1) ∧
      compactTo cacheC2w 7 = some (cacheC2wAfter, 0, 0) ∧
      (∀ e ∈ cacheC2w.cache, cacheC2w.persisted < e.index → e ∈ cacheC2wAfter.cache) :=
  ⟨by decide, by decide, by decide,
    compact_to_persisted_safe cacheC2w 7 cacheC2wAfter 0 0
      (by decide) (by decide) (by decide)⟩

/-- A cache whose trace queue holds a batch ending past `persisted + 1`:
entries 1..5 cached, `persisted = 2`, traced batch `[1, 5)`. -/
def cacheC2x : EntryCache :=
  { initialCache with
    persisted := 2,
    cache := [entC 1 1, entC 2 1, entC 3 1, entC 4 1, entC 5 1], cacheCap := 5,
    trace := [⟨1, 5, [], 0⟩], traceCap := 1 }

/-- C2 counterexample: with a traced batch `[1, 5)` in the queue and
`persisted = 2`, `compact_to(10)` clamps the request to 3 but the trace
drain advances the point to 5, removing the cached entries at indexes 3
and 4 even though they exceed `persisted` — the clamp does not protect
the window for arbitrary trace-queue contents. -/
theorem compact_to_persisted_cex :
    entC 3 1 ∈ cacheC2x.cache ∧
      cacheC2x.persisted = 2 ∧
      (compactTo cacheC2x 10).map (fun r => r.1.cache) = some [entC 5 1] ∧
      ¬ entC 3 1 ∈ [entC 5 1] := by
  refine ⟨by decide, rfl, by decide, by decide⟩

/-- The shape of a successful `append_impl`: the cache becomes the kept
prefix (entries strictly below the incoming first index) followed by the
appended run. -/
theorem appendImpl_shape (c : EntryCache) (es : List Entry) (ef : Entry)
    (c1 : EntryCache) (d : Int)
    (hcontig : contiguousB c.cache = true)
    (hf : es.head? = some ef)
    (ha : appendImpl c es = some (c1, d)) :
    c1.cache = c.cache.filter (fun e => decide (e.index < ef.index)) ++ es := by
  unfold appendImpl at ha
  cases hgl : c.cache.getLast? with
  | none =>
    have hnil : c.cache = [] := List.getLast?_eq_none_iff.mp hgl
    rw [hgl] at ha
    cases ha
    show (pushAll c es).1.cache = _
    unfold pushAll
    simp only []
    rw [hnil]
    simp
  | some lastE =>
    rw [hgl, hf] at ha
    obtain ⟨e0, hh⟩ : ∃ e0, c.cache.head? = some e0 := by
      cases hcc : c.cache with
      | nil => rw [hcc] at hgl; simp at hgl
      | cons a t => exact ⟨a, rfl⟩
    have hcf : contigFrom e0.index c.cache = true := contiguousB_head hcontig hh
    have hlg : lastE.index + 1 = e0.index + c.cache.length :=
      contigFrom_getLast hcf hgl
    have hpos : 0 < c.cache.length := by
      apply List.length_pos.mpr
      intro h0
      rw [h0] at hgl
      simp at hgl
    simp only [] at ha
    split at ha
    · next hover =>
      have hkeep : c.cache.take (c.cache.length - (lastE.index - ef.index + 1))
          = c.cache.filter (fun e => decide (e.index < ef.index)) := by
        by_cases hef : e0.index ≤ ef.index
        · have hn : c.cache.length - (lastE.index - ef.index + 1)
              = ef.index - e0.index := by omega
          rw [hn, contigFrom_take_eq_filter hcf (ef.index - e0.index)]
          have hix : e0.index + (ef.index - e0.index) = ef.index := by omega
          rw [hix]
        · have hn : c.cache.length - (lastE.index - ef.index + 1) = 0 := by omega
          rw [hn, List.take_zero]
          symm
          rw [List.filter_eq_nil_iff]
          intro x hx
          have := contigFrom_bounds hcf hx
          simp only [decide_eq_true_eq]
          omega
      cases hdh : (c.cache.drop
          (c.cache.length - (lastE.index - ef.index + 1))).head? with
      | none => rw [hdh] at ha; cases ha
      | some te =>
        rw [hdh] at ha
        simp only [] at ha
        cases htr : c.trace.getLast? with
        | none =>
          rw [htr] at ha
          simp only [] at ha
          cases ha
          show (truncAppend c _ es).1.cache = _
          unfold truncAppend pushAll
          simp only []
          rw [hkeep]
        | some cached =>
          rw [htr] at ha
          simp only [] at ha
          by_cases hlt : cached.stop - 1 < te.index
          · rw [if_pos hlt] at ha
            cases ha
            show (truncAppend c _ es).1.cache = _
            unfold truncAppend pushAll
            simp only []
            rw [hkeep]
          · rw [if_neg hlt] at ha
            cases ha
    · next hover =>
      split at ha
      · cases ha
      · next hhole =>
        cases ha
        show (pushAll c es).1.cache = _
        unfold pushAll
        simp only []
        have hfe : c.cache.filter (fun e => decide (e.index < ef.index)) = c.cache := by
          rw [List.filter_eq_self]
          intro x hx
          have hb := contigFrom_bounds hcf hx
          simp only [decide_eq_true_eq]
          omega
        rw [hfe]

/-- The shape of a successful `EntryCache::append` (capacity accounting
and shrinking do not change the stored entries). -/
theorem cacheAppend_shape (c : EntryCache) (es : List Entry) (ef : Entry)
    (c' : EntryCache) (d : Int)
    (hcontig : contiguousB c.cache = true)
    (hf : es.head? = some ef)
    (happ : cacheAppend c es = some (c', d)) :
    c'.cache = c.cache.filter (fun e => decide (e.index < ef.index)) ++ es := by
  unfold cacheAppend at happ
  have hne : es.isEmpty = false := by
    cases hes : es with
    | nil => rw [hes] at hf; simp at hf
    | cons a t => rfl
  rw [hne] at happ
  simp only [Bool.false_eq_true, if_false] at happ
  cases hai : appendImpl c es with
  | none => rw [hai] at happ; cases happ
  | some p =>
    rw [hai] at happ
    simp only [] at happ
    cases happ
    rw [shrink_cache_eq]
    exact appendImpl_shape c es ef p.1 p.2 hcontig hf hai

/-- C4: `append(entries)` on a non-empty cache whose `cache_high` is at
least `entries[0].index` first drops every cached entry with index at or
above `entries[0].index` and then appends all of `entries`; the
resulting window is the kept strict-prefix followed by the incoming
run. -/
theorem entry_cache_append_overlap (c : EntryCache) (es : List Entry) (ef eH : Entry)
    (c' : EntryCache) (d : Int)
    (hcontig : contiguousB c.cache = true)
    (hf : es.head? = some ef)
    (_hlast : c.cache.getLast? = some eH)
    (_hover : ef.index ≤ eH.index)
    (happ : cacheAppend c es = some (c', d)) :
    c'.cache = c.cache.filter (fun e => decide (e.index < ef.index)) ++ es :=
  cacheAppend_shape c es ef c' d hcontig hf happ

/-- The cache after S1's first append. -/
def cacheS1 : EntryCache :=
  { initialCache with
    cache := [entC 3 3, entC 4 4, entC 5 4, entC 6 6], cacheCap := 4 }

/-- The cache after S1's second append. -/
def cacheS1b : EntryCache :=
  { initialCache with
    cache := [entC 3 3, entC 4 4, entC 5 5, entC 6 5], cacheCap := 4 }

theorem entry_cache_append_overlap_witness :
    cacheAppend initialCache [entC 3 3, entC 4 4, entC 5 4, entC 6 6]
        = some (cacheS1, 320) ∧
      cacheAppend cacheS1 [entC 5 5, entC 6 5] = some (cacheS1b, 0) ∧
      cacheS1b.cache = [entC 3 3, entC 4 4, entC 5 5, entC 6 5] := by
  refine ⟨by decide, by decide, ?_⟩
  have h := entry_cache_append_overlap cacheS1 [entC 5 5, entC 6 5]
    (entC 5 5) (entC 6 6) cacheS1b 0 (by decide) rfl (by decide) (by decide)
    (by decide)
  rw [h]
  decide

/-- C8: when `entries(low, high, max_size)` passes the range check with
`low < cache_low < high` and the prefix fetch of `[low, cache_low)`
returns fewer entries than requested (a short read), `entries` returns
exactly the prefix entries fetched so far, without reading any entry
from the cache. -/
theorem entries_short_prefix (s : EntryStorage) (low high maxSize : Nat)
    (canAsync : Bool) (e0 : Entry) (s1 : EntryStorage) (pre : List Entry)
    (hchk : checkRange s low high = none)
    (hh : s.cache.cache.head? = some e0)
    (hlow : low < e0.index)
    (hhigh : e0.index < high)
    (hpre : prefixFetch (missInc s) low e0.index maxSize canAsync
      = some (s1, .ok pre))
    (hshort : pre.length < e0.index - low) :
    entriesFn s low high maxSize canAsync = some (s1, .ok pre) := by
  unfold entriesFn
  rw [hchk]
  simp only []
  rw [if_neg (by omega)]
  rw [cacheLowOf_eq hh]
  rw [if_neg (by omega)]
  rw [if_pos hlow]
  rw [hpre]
  simp only []
  rw [if_pos hshort]

/-- Storage for the C8 witness: cache `[E(5)]`, an engine that returns
no entries (maximal short read), `last_index = 5`. -/
def storageC8 : EntryStorage :=
  { emptyStorage with
    cache := { initialCache with cache := [entC 5 1], cacheCap := 1 },
    lastIndex := 5 }

/-- The state after the witness call: one cache miss and one sync fetch
counted. -/
def storageC8r : EntryStorage :=
  { storageC8 with
    cache := { storageC8.cache with miss := 1 },
    statSyncFetch := 1 }

theorem entries_short_prefix_witness :
    checkRange storageC8 3 6 = none ∧
      storageC8.cache.cache.head? = some (entC 5 1) ∧
      prefixFetch (missInc storageC8) 3 5 UMAX false = some (storageC8r, .ok []) ∧
      entriesFn storageC8 3 6 UMAX false = some (storageC8r, .ok []) := by
  refine ⟨rfl, rfl, rfl, ?_⟩
  exact entries_short_prefix storageC8 3 6 UMAX false (entC 5 1) storageC8r []
    rfl rfl (by decide) (by decide) rfl (by decide)

/-- Behavior of the `fetch_entries_to` scan when bytes have already been
accumulated (`fetched > 0`): the scan terminates, stops only at the
range end or once the byte cap is exceeded, and every included entry
kept the running total within the cap. -/
theorem fetchWalk_pos_spec (maxSize limitIdx cacheLow : Nat) (l : List Entry) :
    ∀ (endIdx fetched : Nat),
    contigFrom (endIdx + cacheLow) l = true →
    endIdx < limitIdx →
    limitIdx ≤ endIdx + l.length →
    0 < fetched →
    ∃ endF fF, fetchWalk maxSize limitIdx cacheLow l endIdx fetched = some (endF, fF) ∧
      endIdx ≤ endF ∧ endF ≤ endIdx + l.length ∧
      (endF = limitIdx ∨ maxSize < fF) ∧
      (∀ k, 1 ≤ k → k ≤ endF - endIdx → fetched + sumSizes (l.take k) ≤ maxSize) := by
  induction l with
  | nil =>
    intro endIdx fetched _ hlt hle _
    exfalso
    simp at hle
    omega
  | cons e rest ih =>
    intro endIdx fetched hc hlt hle hf
    rw [contigFrom_cons] at hc
    have hidx : e.index = endIdx + cacheLow := hc.1
    simp only [fetchWalk]
    rw [if_neg (by simp [hidx])]
    have hfm : ¬ (fetched + e.size = e.size) := by omega
    rw [if_neg hfm]
    have hcr : contigFrom (endIdx + 1 + cacheLow) rest = true := by
      have h2 := hc.2
      have harr : endIdx + cacheLow + 1 = endIdx + 1 + cacheLow := by omega
      rwa [harr] at h2
    by_cases hle2 : fetched + e.size ≤ maxSize
    · rw [if_pos hle2]
      by_cases hlim : endIdx + 1 < limitIdx
      · rw [if_pos hlim]
        have hlen' : limitIdx ≤ endIdx + 1 + rest.length := by
          simp only [List.length_cons] at hle
          omega
        obtain ⟨endF, fF, hw, h1, h2, h3, h4⟩ :=
          ih (endIdx + 1) (fetched + e.size) hcr hlim hlen' (by omega)
        refine ⟨endF, fF, hw, by omega, by simp only [List.length_cons]; omega, h3, ?_⟩
        intro k hk1 hk2
        cases k with
        | zero => omega
        | succ k' =>
          rw [List.take_succ_cons]
          have hsum : sumSizes (e :: rest.take k')
              = e.size + sumSizes (rest.take k') := by
            simp [sumSizes]
          cases Nat.eq_zero_or_pos k' with
          | inl h0 =>
            subst h0
            simp only [List.take_zero] at hsum ⊢
            have : sumSizes ([] : List Entry) = 0 := rfl
            omega
          | inr hpos' =>
            have h5 := h4 k' (by omega) (by omega)
            omega
      · rw [if_neg hlim]
        refine ⟨endIdx + 1, fetched + e.size, rfl, by omega,
          by simp only [List.length_cons]; omega, Or.inl (by omega), ?_⟩
        intro k hk1 hk2
        have hk : k = 1 := by omega
        subst hk
        have h1 : (e :: rest).take 1 = [e] := rfl
        rw [h1]
        have h2 : sumSizes [e] = e.size := by simp [sumSizes]
        omega
    · rw [if_neg hle2]
      exact ⟨endIdx, fetched + e.size, rfl, le_refl _,
        by simp only [List.length_cons]; omega, Or.inr (by omega),
        fun k hk1 hk2 => absurd hk2 (by omega)⟩

/-- Behavior of the `fetch_entries_to` scan from a zero byte count: the
first entry is always consumed regardless of its size, and every later
included entry kept the running total within the cap (entry sizes are
required positive, as the serialized size of a real protobuf entry
is). -/
theorem fetchWalk_zero_spec (maxSize limitIdx cacheLow : Nat) (e : Entry)
    (rest : List Entry) (endIdx : Nat)
    (hc : contigFrom (endIdx + cacheLow) (e :: rest) = true)
    (hlt : endIdx < limitIdx)
    (hle : limitIdx ≤ endIdx + (e :: rest).length)
    (hpos : ∀ x ∈ e :: rest, 0 < x.size) :
    ∃ endF fF,
      fetchWalk maxSize limitIdx cacheLow (e :: rest) endIdx 0 = some (endF, fF) ∧
      endIdx + 1 ≤ endF ∧ endF ≤ endIdx + (e :: rest).length ∧
      (endF = limitIdx ∨ maxSize < fF) ∧
      (∀ k, 2 ≤ k → k ≤ endF - endIdx → sumSizes ((e :: rest).take k) ≤ maxSize) := by
  rw [contigFrom_cons] at hc
  have hidx : e.index = endIdx + cacheLow := hc.1
  simp only [fetchWalk]
  rw [if_neg (by simp [hidx])]
  rw [if_pos (by omega)]
  have hcr : contigFrom (endIdx + 1 + cacheLow) rest = true := by
    have h2 := hc.2
    have harr : endIdx + cacheLow + 1 = endIdx + 1 + cacheLow := by omega
    rwa [harr] at h2
  by_cases hc2 : 0 + e.size ≤ maxSize ∧ endIdx + 1 < limitIdx
  · rw [if_pos hc2]
    have hepos : 0 < e.size := hpos e (List.mem_cons_self e rest)
    have hlen' : limitIdx ≤ endIdx + 1 + rest.length := by
      simp only [List.length_cons] at hle
      omega
    obtain ⟨endF, fF, hw, h1, h2, h3, h4⟩ :=
      fetchWalk_pos_spec maxSize limitIdx cacheLow rest (endIdx + 1) (0 + e.size)
        hcr hc2.2 hlen' (by omega)
    refine ⟨endF, fF, hw, by omega, by simp only [List.length_cons]; omega, h3, ?_⟩
    intro k hk1 hk2
    cases k with
    | zero => omega
    | succ k' =>
      rw [List.take_succ_cons]
      have hsum : sumSizes (e :: rest.take k') = e.size + sumSizes (rest.take k') := by
        simp [sumSizes]
      have h5 := h4 k' (by omega) (by omega)
      omega
  · rw [if_neg hc2]
    refine ⟨endIdx + 1, 0 + e.size, rfl, le_refl _,
      by simp only [List.length_cons]; omega, ?_, ?_⟩
    · by_cases h1 : 0 + e.size ≤ maxSize
      · left
        have h2 : ¬ endIdx + 1 < limitIdx := fun hx => hc2 ⟨h1, hx⟩
        omega
      · right
        omega
    · intro k hk1 hk2
      omega

/-- C5 (amended): `fetch_entries_to(lo, hi, 0, max_bytes)` — with NO
bytes already accumulated — on a non-empty cache with
`cache_low ≤ lo < hi ≤ cache_high + 1` and positive entry sizes always
appends at least one entry: the first entry of the range is included
regardless of its size, and every later included entry kept the running
byte total within `max_bytes`.  (With a positive
`already_fetched_bytes`, the call can legitimately append nothing.) -/
theorem fetch_entries_first_entry (c : EntryCache) (lo hi maxSize : Nat) (e0 : Entry)
    (hcontig : contiguousB c.cache = true)
    (hh : c.cache.head? = some e0)
    (hlo : e0.index ≤ lo)
    (hlt : lo < hi)
    (hhi : hi ≤ e0.index + c.cache.length)
    (hpos : ∀ e ∈ c.cache, 0 < e.size) :
    ∃ out, fetchEntriesTo c lo hi 0 maxSize = some out ∧
      out ≠ [] ∧
      out.head? = (c.cache.drop (lo - e0.index)).head? ∧
      (∀ k, 2 ≤ k → k ≤ out.length → sumSizes (out.take k) ≤ maxSize) := by
  have hcf : contigFrom e0.index c.cache = true := contiguousB_head hcontig hh
  have hlendrop : (c.cache.drop (lo - e0.index)).length
      = c.cache.length - (lo - e0.index) := by simp
  have hstart : lo - e0.index < c.cache.length := by omega
  cases hdd : c.cache.drop (lo - e0.index) with
  | nil =>
    exfalso
    have : (c.cache.drop (lo - e0.index)).length = 0 := by rw [hdd]; rfl
    omega
  | cons e' rest =>
    have hcd : contigFrom ((lo - e0.index) + e0.index) (e' :: rest) = true := by
      have h1 := contigFrom_drop hcf (lo - e0.index)
      rw [hdd] at h1
      have harr : e0.index + (lo - e0.index) = (lo - e0.index) + e0.index := by omega
      rwa [harr] at h1
    have hlenc : (e' :: rest).length = c.cache.length - (lo - e0.index) := by
      rw [← hdd]
      exact hlendrop
    obtain ⟨endF, fF, hw, h1, h2, h3, h4⟩ :=
      fetchWalk_zero_spec maxSize (hi - e0.index) e0.index e' rest (lo - e0.index)
        hcd (by omega) (by rw [hlenc]; omega)
        (by
          intro x hx
          apply hpos
          have : x ∈ c.cache.drop (lo - e0.index) := by rw [hdd]; exact hx
          exact List.mem_of_mem_drop this)
    unfold fetchEntriesTo
    rw [if_neg (by omega)]
    rw [hh]
    simp only []
    rw [if_neg (by omega), if_neg (by omega)]
    rw [hdd, hw]
    simp only []
    rw [if_pos h3]
    have houtlen : ((e' :: rest).take (endF - (lo - e0.index))).length
        = endF - (lo - e0.index) := by
      rw [List.length_take]
      have : endF - (lo - e0.index) ≤ (e' :: rest).length := by rw [hlenc]; omega
      omega
    refine ⟨_, rfl, ?_, ?_, ?_⟩
    · intro hnil
      have : ((e' :: rest).take (endF - (lo - e0.index))).length = 0 := by
        rw [hnil]; rfl
      omega
    · cases hn : endF - (lo - e0.index) with
      | zero => omega
      | succ m =>
        rw [List.take_succ_cons]
        rfl
    · intro k hk1 hk2
      rw [houtlen] at hk2
      rw [List.take_take]
      have hmin : min k (endF - (lo - e0.index)) = k := by omega
      rw [hmin]
      exact h4 k (by omega) hk2

/-- A one-entry cache for the C5 witness. -/
def cacheC5w : EntryCache :=
  { initialCache with cache := [entC 3 3, entC 4 4], cacheCap := 2 }

theorem fetch_entries_first_entry_witness :
    (contiguousB cacheC5w.cache = true ∧ cacheC5w.cache.head? = some (entC 3 3)) ∧
      fetchEntriesTo cacheC5w 3 5 0 0 = some [entC 3 3] ∧
      (∃ out, fetchEntriesTo cacheC5w 3 5 0 0 = some out ∧
        out ≠ [] ∧
        out.head? = (cacheC5w.cache.drop (3 - 3)).head? ∧
        (∀ k, 2 ≤ k → k ≤ out.length → sumSizes (out.take k) ≤ 0)) := by
  refine ⟨⟨by decide, rfl⟩, by decide, ?_⟩
  exact fetch_entries_first_entry cacheC5w 3 5 0 (entC 3 3)
    (by decide) rfl (by decide) (by decide) (by decide) (by decide)

/-- A cache holding one entry of serialized size 5. -/
def cacheC5x : EntryCache :=
  { initialCache with cache := [⟨1, 1, 0, 0, 5⟩], cacheCap := 1 }

/-- C5 counterexample: with `already_fetched_bytes = 1` and
`max_bytes = 3`, `fetch_entries_to(1, 2, ...)` on the one-entry cache
appends NOTHING: the size cap produces an empty response even though an
entry exists in the requested range, because the
first-entry-regardless-of-size rule only fires when the accumulated
byte count is zero. -/
theorem fetch_entries_first_entry_cex :
    cacheC5x.cache = [⟨1, 1, 0, 0, 5⟩] ∧
      fetchEntriesTo cacheC5x 1 2 1 3 = some [] := by
  exact ⟨rfl, by decide⟩

theorem stitchGo_all (eng : Nat → Option Entry) (maxSize : Nat) :
    ∀ (n idx fetched : Nat),
    (∀ k, idx ≤ k → k < idx + n → (eng k).isSome = true) →
    fetched + sumSizes (engRangeGo eng n idx) ≤ maxSize →
    stitchGo eng maxSize n idx fetched = some (engRangeGo eng n idx) := by
  intro n
  induction n with
  | zero => intro idx fetched _ _; rfl
  | succ m ih =>
    intro idx fetched hall hbud
    have hs : (eng idx).isSome = true := hall idx (le_refl _) (by omega)
    cases heng : eng idx with
    | none => rw [heng] at hs; simp at hs
    | some e =>
      have hrange : engRangeGo eng (m + 1) idx = e :: engRangeGo eng m (idx + 1) := by
        simp only [engRangeGo, heng]
      rw [hrange] at hbud ⊢
      have hsum : sumSizes (e :: engRangeGo eng m (idx + 1))
          = e.size + sumSizes (engRangeGo eng m (idx + 1)) := by simp [sumSizes]
      have hihe := ih (idx + 1) (fetched + e.size)
        (fun k h1 h2 => hall k (by omega) (by omega)) (by omega)
      simp only [stitchGo, heng]
      rw [if_neg (by omega), hihe]

theorem stitchGo_missing (eng : Nat → Option Entry) (maxSize : Nat) :
    ∀ (n idx fetched k : Nat),
    idx ≤ k → k < idx + n →
    eng k = none →
    (∀ j, idx ≤ j → j < k → (eng j).isSome = true) →
    fetched + sumSizes (engRangeGo eng (k - idx) idx) ≤ maxSize →
    stitchGo eng maxSize n idx fetched = none := by
  intro n
  induction n with
  | zero => intro idx fetched k h1 h2 _ _ _; omega
  | succ m ih =>
    intro idx fetched k h1 h2 hnone hprev hbud
    by_cases hke : k = idx
    · subst hke
      unfold stitchGo
      rw [hnone]
    · have hlt : idx < k := by omega
      have hs : (eng idx).isSome = true := hprev idx (le_refl _) hlt
      cases heng : eng idx with
      | none => rw [heng] at hs; simp at hs
      | some e =>
        have hki : k - idx = (k - (idx + 1)) + 1 := by omega
        have hrange : engRangeGo eng (k - idx) idx
            = e :: engRangeGo eng (k - (idx + 1)) (idx + 1) := by
          rw [hki]
          simp only [engRangeGo, heng]
        rw [hrange] at hbud
        have hsum : sumSizes (e :: engRangeGo eng (k - (idx + 1)) (idx + 1))
            = e.size + sumSizes (engRangeGo eng (k - (idx + 1)) (idx + 1)) := by
          simp [sumSizes]
        have hihe := ih (idx + 1) (fetched + e.size) k (by omega) (by omega) hnone
          (fun j hj1 hj2 => hprev j (by omega) hj2) (by omega)
        simp only [stitchGo, heng]
        rw [if_neg (by omega), hihe]

theorem stitchGo_stop (eng : Nat → Option Entry) (maxSize : Nat) :
    ∀ (n idx fetched k : Nat) (e : Entry),
    idx ≤ k → k < idx + n →
    (∀ j, idx ≤ j → j < k → (eng j).isSome = true) →
    eng k = some e →
    fetched + sumSizes (engRangeGo eng (k - idx) idx) ≤ maxSize →
    maxSize < fetched + sumSizes (engRangeGo eng (k - idx) idx) + e.size →
    stitchGo eng maxSize n idx fetched = some (engRangeGo eng (k - idx) idx) := by
  intro n
  induction n with
  | zero => intro idx fetched k e h1 h2 _ _ _ _; omega
  | succ m ih =>
    intro idx fetched k e h1 h2 hprev hek hbud hexc
    by_cases hke : k = idx
    · subst hke
      have hz : k - k = 0 := by omega
      rw [hz] at hbud hexc ⊢
      have hzr : engRangeGo eng 0 k = [] := rfl
      rw [hzr] at hbud hexc ⊢
      have hsz : sumSizes ([] : List Entry) = 0 := rfl
      simp only [stitchGo, hek]
      rw [if_pos (by omega)]
    · have hlt : idx < k := by omega
      have hs : (eng idx).isSome = true := hprev idx (le_refl _) hlt
      cases heng : eng idx with
      | none => rw [heng] at hs; simp at hs
      | some e' =>
        have hki : k - idx = (k - (idx + 1)) + 1 := by omega
        have hrange : engRangeGo eng (k - idx) idx
            = e' :: engRangeGo eng (k - (idx + 1)) (idx + 1) := by
          rw [hki]
          simp only [engRangeGo, heng]
        rw [hrange] at hbud hexc ⊢
        have hsum : sumSizes (e' :: engRangeGo eng (k - (idx + 1)) (idx + 1))
            = e'.size + sumSizes (engRangeGo eng (k - (idx + 1)) (idx + 1)) := by
          simp [sumSizes]
        have hihe := ih (idx + 1) (fetched + e'.size) k e (by omega) (by omega)
          (fun j hj1 hj2 => hprev j (by omega) hj2) hek (by omega) (by omega)
        simp only [stitchGo, heng]
        rw [if_neg (by omega), hihe]

/-- C6: when `async_fetch` consumes a `Fetched` slot whose entries do
not cover the range, the gap is small
(`last + RAFT_LOG_MULTI_GET_CNT > high - 1`), the async budget is spent
(`tried_cnt + 1 == MAX_ASYNC_FETCH_TRY_CNT`) and the stored bytes are
under `max_size`, the code stitches synchronously: it reads indexes
`last+1 .. high-1` from the engine one at a time, returns
`Err(Unavailable)` if the engine has no entry at a required index,
stops early once adding the next entry would exceed `max_size`, and
otherwise appends the accumulated entries and returns their count. -/
theorem async_fetch_stitch (s : EntryStorage) (low high maxSize : Nat)
    (res : RaftlogFetchResult) (ents : List Entry) (e0 eL : Entry)
    (hslot : slotGet s.afr low = some (.fetched res))
    (hlow : res.low = low)
    (hents : res.ents = RaftRes.ok ents)
    (hhead : ents.head? = some e0)
    (hlast : ents.getLast? = some eL)
    (hfirst : e0.index = low)
    (hcover : eL.index + 1 < high)
    (hhit : res.hitSizeLimit = false)
    (hnear : high - 1 < eL.index + RAFT_LOG_MULTI_GET_CNT)
    (htried : res.triedCnt + 1 = MAX_ASYNC_FETCH_TRY_CNT)
    (hbudget : sumSizes ents < maxSize) :
    (asyncFetch s low high maxSize
        = some ({ s with afr := slotRemove s.afr low },
          match stitchLoop s.engineEntry high maxSize (eL.index + 1) (sumSizes ents) with
          | none => .error .unavailable
          | some extra => .ok (ents ++ extra))) ∧
      ((∀ k, eL.index + 1 ≤ k → k < high → (s.engineEntry k).isSome = true) →
        sumSizes ents + sumSizes (engRange s.engineEntry (eL.index + 1) high) ≤ maxSize →
        asyncFetch s low high maxSize
          = some ({ s with afr := slotRemove s.afr low },
            .ok (ents ++ engRange s.engineEntry (eL.index + 1) high))) ∧
      (∀ k, eL.index + 1 ≤ k → k < high → s.engineEntry k = none →
        (∀ j, eL.index + 1 ≤ j → j < k → (s.engineEntry j).isSome = true) →
        sumSizes ents + sumSizes (engRange s.engineEntry (eL.index + 1) k) ≤ maxSize →
        asyncFetch s low high maxSize
          = some ({ s with afr := slotRemove s.afr low }, .error .unavailable)) ∧
      (∀ k e, eL.index + 1 ≤ k → k < high → s.engineEntry k = some e →
        (∀ j, eL.index + 1 ≤ j → j < k → (s.engineEntry j).isSome = true) →
        sumSizes ents + sumSizes (engRange s.engineEntry (eL.index + 1) k) ≤ maxSize →
        maxSize < sumSizes ents + sumSizes (engRange s.engineEntry (eL.index + 1) k)
          + e.size →
        asyncFetch s low high maxSize
          = some ({ s with afr := slotRemove s.afr low },
            .ok (ents ++ engRange s.engineEntry (eL.index + 1) k))) := by
  have hne : ents ≠ [] := by
    intro h0
    rw [h0] at hhead
    simp at hhead
  have h1 : asyncFetch s low high maxSize
      = some ({ s with afr := slotRemove s.afr low },
        match stitchLoop s.engineEntry high maxSize (eL.index + 1) (sumSizes ents) with
        | none => .error .unavailable
        | some extra => .ok (ents ++ extra)) := by
    unfold asyncFetch
    rw [hslot]
    simp only [isFetchingB, Bool.false_eq_true, if_false]
    rw [if_neg (by simp [hlow])]
    rw [hents]
    simp only []
    rw [hhead, hlast]
    simp only []
    rw [if_neg (by rw [hfirst, hlow]; simp)]
    rw [if_neg (by omega)]
    rw [if_neg (by simp [hhit])]
    rw [if_pos ⟨by omega, htried⟩]
    rw [if_neg (by omega)]
    cases hst : stitchLoop s.engineEntry high maxSize (eL.index + 1) (sumSizes ents) with
    | none => simp
    | some extra => simp
  refine ⟨h1, ?_, ?_, ?_⟩
  · intro hall hbud
    rw [h1]
    have heq : stitchLoop s.engineEntry high maxSize (eL.index + 1) (sumSizes ents)
        = some (engRange s.engineEntry (eL.index + 1) high) := by
      unfold stitchLoop engRange
      apply stitchGo_all
      · intro k hk1 hk2
        exact hall k hk1 (by omega)
      · exact hbud
    rw [heq]
  · intro k hk1 hk2 hnone hprev hbud
    rw [h1]
    have heq : stitchLoop s.engineEntry high maxSize (eL.index + 1) (sumSizes ents)
        = none := by
      unfold stitchLoop
      apply stitchGo_missing s.engineEntry maxSize (high - (eL.index + 1))
        (eL.index + 1) (sumSizes ents) k hk1 (by omega) hnone hprev
      have hre : engRange s.engineEntry (eL.index + 1) k
          = engRangeGo s.engineEntry (k - (eL.index + 1)) (eL.index + 1) := rfl
      rw [hre] at hbud
      exact hbud
    rw [heq]
  · intro k e hk1 hk2 hek hprev hbud hexc
    rw [h1]
    have hre : engRange s.engineEntry (eL.index + 1) k
        = engRangeGo s.engineEntry (k - (eL.index + 1)) (eL.index + 1) := rfl
    rw [hre] at hbud hexc ⊢
    have heq : stitchLoop s.engineEntry high maxSize (eL.index + 1) (sumSizes ents)
        = some (engRangeGo s.engineEntry (k - (eL.index + 1)) (eL.index + 1)) := by
      unfold stitchLoop
      exact stitchGo_stop s.engineEntry maxSize (high - (eL.index + 1))
        (eL.index + 1) (sumSizes ents) k e hk1 (by omega) hprev hek hbud hexc
    rw [heq]

/-- Storage for scenario S5: the engine holds entries 2..6, the slot at
`low = 3` holds `Fetched(Ok([E(3..=5)]), tried_cnt = 2)`. -/
def storageS5 : EntryStorage :=
  { emptyStorage with
    engineEntry := fun k => if 2 ≤ k ∧ k ≤ 6 then some (entC k k) else none,
    afr := [(3, .fetched
      ⟨RaftRes.ok [entC 3 3, entC 4 4, entC 5 5], 3, UMAX, false, 2, 1⟩)] }

theorem async_fetch_stitch_witness :
    slotGet storageS5.afr 3 = some (.fetched
        ⟨RaftRes.ok [entC 3 3, entC 4 4, entC 5 5], 3, UMAX, false, 2, 1⟩) ∧
      asyncFetch storageS5 3 7 UMAX
        = some ({ storageS5 with afr := slotRemove storageS5.afr 3 },
            .ok ([entC 3 3, entC 4 4, entC 5 5]
              ++ engRange storageS5.engineEntry 6 7)) ∧
      [entC 3 3, entC 4 4, entC 5 5] ++ engRange storageS5.engineEntry 6 7
        = [entC 3 3, entC 4 4, entC 5 5, entC 6 6] ∧
      [entC 3 3, entC 4 4, entC 5 5, entC 6 6].length = 4 := by
  refine ⟨rfl, ?_, rfl, rfl⟩
  exact (async_fetch_stitch storageS5 3 7 UMAX
      ⟨RaftRes.ok [entC 3 3, entC 4 4, entC 5 5], 3, UMAX, false, 2, 1⟩
      [entC 3 3, entC 4 4, entC 5 5] (entC 3 3) (entC 5 5)
      rfl rfl rfl rfl rfl rfl (by decide) rfl (by decide) rfl (by decide)).2.1
    (fun k h1 h2 => by
      have h5 : (entC 5 5).index = 5 := rfl
      rw [h5] at h1
      have hk : k = 6 := by omega
      subst hk
      rfl)
    (by decide)

/-- The conserved quantity: bytes the accounting layer currently holds
responsibility for — the cache's own memory plus the dangle bytes of
batches still in the trace queue. -/
def potential (c : EntryCache) : Int :=
  totalMemSize c + (dangleSum c.trace : Int)

theorem payloadSum_append (a b : List Entry) :
    payloadSum (a ++ b) = payloadSum a + payloadSum b := by
  simp [payloadSum]

theorem payloadSum_take_drop (l : List Entry) (n : Nat) :
    payloadSum (l.take n) + payloadSum (l.drop n) = payloadSum l := by
  rw [← payloadSum_append, List.take_append_drop]

theorem dangleSum_append (a b : List CachedEntries) :
    dangleSum (a ++ b) = dangleSum a + dangleSum b := by
  simp [dangleSum]

theorem potential_eq (c : EntryCache) :
    potential c = (payloadSum c.cache : Int)
      + (ENTRY_MEM_SIZE : Int) * c.cacheCap
      + (CACHED_ENTRIES_MEM_SIZE : Int) * c.traceCap
      + (dangleSum c.trace : Int) := by
  unfold potential totalMemSize cacheVecMemChange traceVecMemChange
  push_cast
  ring

theorem shrink_delta_eq (c : EntryCache) :
    (shrinkIfNecessary c).2
      = cacheVecMemChange (shrinkIfNecessary c).1.cacheCap c.cacheCap := by
  unfold shrinkIfNecessary
  split
  · rfl
  · unfold cacheVecMemChange
    simp

theorem traceDrain_dangle (idx : Nat) (l : List CachedEntries) :
    (traceDrain idx l).2.2
      = (dangleSum (traceDrain idx l).2.1 : Int) - (dangleSum l : Int) := by
  induction l generalizing idx with
  | nil => simp [traceDrain]
  | cons b rest ih =>
    unfold traceDrain
    split
    · simp
    · have h1 := ih (max b.stop idx)
      have h2 : dangleSum (b :: rest) = b.dangle + dangleSum rest := by
        simp [dangleSum]
      simp only []
      rw [h1, h2]
      push_cast
      ring

theorem pushAll_fields (c : EntryCache) (es : List Entry) :
    (pushAll c es).1.cache = c.cache ++ es ∧
      (pushAll c es).2 = (payloadSum es : Int) ∧
      (pushAll c es).1.trace = c.trace ∧
      (pushAll c es).1.traceCap = c.traceCap ∧
      (pushAll c es).1.persisted = c.persisted :=
  ⟨rfl, rfl, rfl, rfl, rfl⟩

theorem truncAppend_fields (c : EntryCache) (n : Nat) (es : List Entry) :
    (truncAppend c n es).1.cache = c.cache.take n ++ es ∧
      (truncAppend c n es).2
        = (payloadSum es : Int) - (payloadSum (c.cache.drop n) : Int) ∧
      (truncAppend c n es).1.trace = c.trace ∧
      (truncAppend c n es).1.traceCap = c.traceCap ∧
      (truncAppend c n es).1.persisted = c.persisted :=
  ⟨rfl, rfl, rfl, rfl, rfl⟩

/-- The payload delta returned by `append_impl` is exactly the change of
stored payload bytes; the trace queue is untouched. -/
theorem appendImpl_delta (c : EntryCache) (es : List Entry) (c1 : EntryCache)
    (d1 : Int) (ha : appendImpl c es = some (c1, d1)) :
    d1 = (payloadSum c1.cache : Int) - (payloadSum c.cache : Int) ∧
      c1.trace = c.trace ∧ c1.traceCap = c.traceCap ∧ c1.persisted = c.persisted := by
  unfold appendImpl at ha
  cases hgl : c.cache.getLast? with
  | none =>
    rw [hgl] at ha
    cases ha
    refine ⟨?_, rfl, rfl, rfl⟩
    show (payloadSum es : Int)
      = (payloadSum (c.cache ++ es) : Int) - (payloadSum c.cache : Int)
    rw [payloadSum_append]
    push_cast
    ring
  | some lastE =>
    rw [hgl] at ha
    simp only [] at ha
    cases hhd : es.head? with
    | none =>
      rw [hhd] at ha
      simp only [] at ha
      cases ha
    | some e0 =>
      rw [hhd] at ha
      simp only [] at ha
      have hta : ∀ (hx : (c1, d1)
          = truncAppend c (c.cache.length - (lastE.index - e0.index + 1)) es),
          d1 = (payloadSum c1.cache : Int) - (payloadSum c.cache : Int) ∧
            c1.trace = c.trace ∧ c1.traceCap = c.traceCap ∧
            c1.persisted = c.persisted := by
        intro hx
        have hc1 : c1 = (truncAppend c
            (c.cache.length - (lastE.index - e0.index + 1)) es).1 := by
          rw [← hx]
        have hd1 : d1 = (truncAppend c
            (c.cache.length - (lastE.index - e0.index + 1)) es).2 := by
          rw [← hx]
        obtain ⟨f1, f2, f3, f4, f5⟩ := truncAppend_fields c
          (c.cache.length - (lastE.index - e0.index + 1)) es
        refine ⟨?_, by rw [hc1, f3], by rw [hc1, f4], by rw [hc1, f5]⟩
        rw [hd1, f2, hc1, f1, payloadSum_append]
        have hsplit := payloadSum_take_drop c.cache
          (c.cache.length - (lastE.index - e0.index + 1))
        push_cast
        push_cast at hsplit
        linarith
      split at ha
      · cases hdh : (c.cache.drop
            (c.cache.length - (lastE.index - e0.index + 1))).head? with
        | none => rw [hdh] at ha; cases ha
        | some te =>
          rw [hdh] at ha
          simp only [] at ha
          cases htr : c.trace.getLast? with
          | none =>
            rw [htr] at ha
            simp only [] at ha
            cases ha
            exact hta rfl
          | some cached =>
            rw [htr] at ha
            simp only [] at ha
            split at ha
            · cases ha
              exact hta rfl
            · cases ha
      · split at ha
        · cases ha
        · cases ha
          refine ⟨?_, rfl, rfl, rfl⟩
          show (payloadSum es : Int)
            = (payloadSum (c.cache ++ es) : Int) - (payloadSum c.cache : Int)
          rw [payloadSum_append]
          push_cast
          ring

/-- The byte delta published by `EntryCache::append` equals the change
of the conserved quantity. -/
theorem cacheAppend_delta (c : EntryCache) (es : List Entry) (c' : EntryCache)
    (d : Int) (h : cacheAppend c es = some (c', d)) :
    d = potential c' - potential c := by
  unfold cacheAppend at h
  cases hes : es.isEmpty with
  | true =>
    rw [hes] at h
    simp only [if_true] at h
    cases h
    ring
  | false =>
    rw [hes] at h
    simp only [Bool.false_eq_true, if_false] at h
    cases hai : appendImpl c es with
    | none => rw [hai] at h; cases h
    | some p =>
      rw [hai] at h
      simp only [] at h
      cases h
      obtain ⟨hd1, htr, htc, hp⟩ := appendImpl_delta c es p.1 p.2 hai
      have hcc : (shrinkIfNecessary p.1).1.cache = p.1.cache := shrink_cache_eq p.1
      have hct : (shrinkIfNecessary p.1).1.trace = p.1.trace := shrink_trace_eq p.1
      have hctc : (shrinkIfNecessary p.1).1.traceCap = p.1.traceCap :=
        shrink_traceCap_eq p.1
      have hsd := shrink_delta_eq p.1
      rw [potential_eq, potential_eq]
      rw [hcc, hct, hctc, htr, htc]
      rw [hd1, hsd]
      unfold cacheVecMemChange
      ring

theorem traceStage_delta_eq (c : EntryCache) (i : Nat) :
    (traceStage c i).2.1 = potential (traceStage c i).1 - potential c := by
  have h1 := traceDrain_dangle i c.trace
  unfold traceStage
  simp only []
  rw [potential_eq, potential_eq]
  simp only []
  rw [h1]
  unfold traceVecMemChange
  push_cast
  ring

theorem dropShrink_potential (c1 : EntryCache) (n : Nat) :
    potential (shrinkIfNecessary { c1 with cache := c1.cache.drop n }).1
        - potential c1
      = - (payloadSum (c1.cache.take n) : Int)
        + (shrinkIfNecessary { c1 with cache := c1.cache.drop n }).2 := by
  have hc := shrink_cache_eq { c1 with cache := c1.cache.drop n }
  have ht := shrink_trace_eq { c1 with cache := c1.cache.drop n }
  have htc := shrink_traceCap_eq { c1 with cache := c1.cache.drop n }
  have hd := shrink_delta_eq { c1 with cache := c1.cache.drop n }
  have hsplit := payloadSum_take_drop c1.cache n
  rw [potential_eq, potential_eq]
  rw [hc, ht, htc, hd]
  simp only []
  unfold cacheVecMemChange
  have hcast : (payloadSum (c1.cache.take n) : Int)
      + (payloadSum (c1.cache.drop n) : Int) = (payloadSum c1.cache : Int) := by
    push_cast [← hsplit]
    ring
  linarith

theorem cacheStage_delta (c1 : EntryCache) (idx : Nat) (delta1 : Int)
    (c' : EntryCache) (d : Int) (f : Nat)
    (h : cacheStage c1 idx delta1 = some (c', d, f)) :
    d = delta1 + (potential c' - potential c1) := by
  unfold cacheStage at h
  split at h
  · split at h
    · cases h
      ring
    · cases h
  · cases hgl : c1.cache.getLast? with
    | none => rw [hgl] at h; cases h
    | some lastE =>
      rw [hgl] at h
      simp only [] at h
      split at h
      · cases h
      · split at h
        · cases h
          have hdp := dropShrink_potential c1
            (min (lastE.index + 1) idx - cacheLowOf c1)
          linarith
        · cases h

theorem compactTo_delta (c : EntryCache) (i : Nat) (c' : EntryCache) (d : Int)
    (f : Nat) (h : compactTo c i = some (c', d, f)) :
    d = potential c' - potential c := by
  unfold compactTo at h
  have h1 := cacheStage_delta (traceStage c (clampIdx c i)).1
    (traceStage c (clampIdx c i)).2.2 (traceStage c (clampIdx c i)).2.1 c' d f h
  have h2 := traceStage_delta_eq c (clampIdx c i)
  linarith

theorem traceCachedEntries_delta (c : EntryCache) (b : CachedEntries)
    (c' : EntryCache) (d : Int) (h : traceCachedEntries c b = some (c', d)) :
    d = potential c' - potential c := by
  unfold traceCachedEntries at h
  cases hgl : b.ents.getLast? with
  | none => rw [hgl] at h; cases h
  | some lastE =>
    rw [hgl] at h
    simp only [] at h
    cases h
    rw [potential_eq, potential_eq]
    simp only []
    rw [dangleSum_append]
    have hone : dangleSum [{ b with dangle := payloadSum (b.ents.take
        (if lastE.index < cacheLowOf c then b.ents.length
         else match b.ents.findIdx? (fun e => e.index == cacheLowOf c) with
              | some i => i
              | none => 0)) }]
        = payloadSum (b.ents.take
          (if lastE.index < cacheLowOf c then b.ents.length
           else match b.ents.findIdx? (fun e => e.index == cacheLowOf c) with
                | some i => i
                | none => 0)) := by
      simp [dangleSum]
    rw [hone]
    unfold traceVecMemChange
    push_cast
    ring

theorem cacheEvict_delta (c : EntryCache) (half : Bool) (c' : EntryCache)
    (d : Int) (h : cacheEvict c half = some (c', d)) :
    d = potential c' - potential c := by
  unfold cacheEvict at h
  split at h
  · cases h
    ring
  · simp only [] at h
    cases hdh : (c.cache.drop
        (if half then c.cache.length / 2 else c.cache.length - 1)).head? with
    | none => rw [hdh] at h; cases h
    | some e =>
      rw [hdh] at h
      simp only [] at h
      cases hct : compactTo c (e.index + 1) with
      | none => rw [hct] at h; cases h
      | some r =>
        rw [hct] at h
        simp only [] at h
        cases h
        exact compactTo_delta c (e.index + 1) r.1 r.2.1 r.2.2 (by rw [hct])

theorem applyOp_delta (c : EntryCache) (op : CacheOp) (c' : EntryCache) (d : Int)
    (h : applyOp c op = some (c', d)) : d = potential c' - potential c := by
  cases op with
  | append es => exact cacheAppend_delta c es c' d h
  | compact i =>
    unfold applyOp at h
    simp only [] at h
    cases hct : compactTo c i with
    | none => rw [hct] at h; cases h
    | some r =>
      rw [hct] at h
      simp only [Option.map_some'] at h
      cases h
      exact compactTo_delta c i r.1 r.2.1 r.2.2 (by rw [hct])
  | traceOp es =>
    unfold applyOp at h
    simp only [] at h
    cases hmk : CachedEntries.make es with
    | none => rw [hmk] at h; cases h
    | some b =>
      rw [hmk] at h
      simp only [] at h
      exact traceCachedEntries_delta c b c' d h
  | evictOp half => exact cacheEvict_delta c half c' d h
  | setPersisted p =>
    unfold applyOp at h
    cases h
    rw [potential_eq, potential_eq]
    unfold updatePersisted
    simp only []
    ring

theorem runOps_conservation : ∀ (ops : List CacheOp) (c c' : EntryCache) (acc : Int),
    runOps c ops = some (c', acc) → acc = potential c' - potential c := by
  intro ops
  induction ops with
  | nil =>
    intro c c' acc h
    unfold runOps at h
    cases h
    ring
  | cons op rest ih =>
    intro c c' acc h
    unfold runOps at h
    cases hap : applyOp c op with
    | none => rw [hap] at h; cases h
    | some p =>
      rw [hap] at h
      simp only [] at h
      cases hrun : runOps p.1 rest with
      | none => rw [hrun] at h; cases h
      | some q =>
        rw [hrun] at h
        simp only [] at h
        cases h
        have h1 := applyOp_delta c op p.1 p.2 (by rw [hap])
        have h2 := ih p.1 q.1 q.2 (by rw [hrun])
        linarith

/-- C7 (amended): over any sequence of cache operations starting from
`EntryCache::default()`, the construction baseline plus the sum of all
published byte deltas equals `total_mem_size` PLUS the dangle bytes of
the batches still in the trace queue — not `total_mem_size` alone.
Consequently the construction-to-destruction sum (destruction publishes
`-total_mem_size`) equals the outstanding dangle bytes at drop, and is
zero exactly when no traced batch with dangling entries remains. -/
theorem cache_memory_conservation (ops : List CacheOp) (c : EntryCache) (acc : Int)
    (h : runOps initialCache ops = some (c, acc)) :
    totalMemSize initialCache + acc = totalMemSize c + (dangleSum c.trace : Int) ∧
      (totalMemSize initialCache + acc) - totalMemSize c
        = (dangleSum c.trace : Int) := by
  have h1 := runOps_conservation ops initialCache c acc h
  have h2 : potential initialCache = 0 := by decide
  have h3 : totalMemSize initialCache = 0 := by decide
  unfold potential at h1 h2
  constructor
  · linarith
  · linarith

/-- The cache after tracing a single batch `[1, 2)` holding one entry of
payload capacity 10 (the entry is not in the cache window, so all 10
bytes dangle). -/
def cacheC7x : EntryCache :=
  { initialCache with trace := [⟨1, 2, [⟨1, 1, 10, 0, 1⟩], 10⟩], traceCap := 1 }

/-- C7 counterexample: after construction (publishing 0) and one
`trace_cached_entries` of a dangling batch, the published deltas sum to
50 (10 dangle bytes plus 40 trace-slot bytes) while `total_mem_size` is
only 40 — the summed deltas do NOT equal the cache's `total_mem_size`,
and a drop at this point (publishing -40) would leave a lifetime sum of
10, not zero. -/
theorem cache_memory_conservation_witness :
    runOps initialCache [CacheOp.traceOp [⟨1, 1, 10, 0, 1⟩]]
        = some (cacheC7x, 50) ∧
      (totalMemSize initialCache + 50
          = totalMemSize cacheC7x + (dangleSum cacheC7x.trace : Int) ∧
        (totalMemSize initialCache + 50) - totalMemSize cacheC7x
          = (dangleSum cacheC7x.trace : Int)) :=
  ⟨by decide, cache_memory_conservation [CacheOp.traceOp [⟨1, 1, 10, 0, 1⟩]]
    cacheC7x 50 (by decide)⟩

theorem cache_memory_conservation_cex :
    runOps initialCache [CacheOp.traceOp [⟨1, 1, 10, 0, 1⟩]]
        = some (cacheC7x, 50) ∧
      totalMemSize initialCache = 0 ∧
      totalMemSize cacheC7x = 40 ∧
      ¬ (totalMemSize initialCache + 50 = totalMemSize cacheC7x) := by
  refine ⟨by decide, by decide, by decide, by decide⟩

theorem appendImpl_no_hole (c : EntryCache) (es : List Entry)
    (p : EntryCache × Int) (ef eH : Entry)
    (hf : es.head? = some ef)
    (hgl : c.cache.getLast? = some eH)
    (ha : appendImpl c es = some p) :
    ef.index ≤ eH.index + 1 := by
  unfold appendImpl at ha
  rw [hgl] at ha
  simp only [] at ha
  rw [hf] at ha
  simp only [] at ha
  split at ha
  · next hover => omega
  · next hover =>
    split at ha
    · cases ha
    · next hhole => omega

theorem cacheAppend_no_hole (c : EntryCache) (es : List Entry) (c' : EntryCache)
    (d : Int) (ef eH : Entry)
    (hf : es.head? = some ef)
    (hgl : c.cache.getLast? = some eH)
    (h : cacheAppend c es = some (c', d)) :
    ef.index ≤ eH.index + 1 := by
  unfold cacheAppend at h
  have hne : es.isEmpty = false := by
    cases hes : es with
    | nil => rw [hes] at hf; simp at hf
    | cons a t => rfl
  rw [hne] at h
  simp only [Bool.false_eq_true, if_false] at h
  cases hai : appendImpl c es with
  | none => rw [hai] at h; cases h
  | some p =>
    exact appendImpl_no_hole c es p ef eH hf hgl hai

/-- Shape of the window after a hole-free append: it starts at `cl`
(the old window start, or `f` when nothing was kept), stays contiguous,
and the appended run is exactly the suffix from position `f - cl`. -/
theorem kept_shape (old es : List Entry) (f : Nat)
    (hcontig : contiguousB old = true)
    (hes : contigFrom f es = true) (hne : es ≠ [])
    (hhole : old = [] ∨ ∃ eH, old.getLast? = some eH ∧ f ≤ eH.index + 1) :
    ∃ cl : Nat,
      (old.filter (fun e => decide (e.index < f)) ++ es).head?.map Entry.index
        = some cl ∧
      cl ≤ f ∧
      contigFrom cl (old.filter (fun e => decide (e.index < f)) ++ es) = true ∧
      (old.filter (fun e => decide (e.index < f))).length = f - cl := by
  obtain ⟨ef, rest, hcons⟩ : ∃ ef rest, es = ef :: rest := by
    cases hes' : es with
    | nil => exact absurd hes' hne
    | cons a t => exact ⟨a, t, rfl⟩
  have hef : ef.index = f := by
    rw [hcons, contigFrom_cons] at hes
    exact hes.1
  by_cases holdnil : old = []
  · subst holdnil
    refine ⟨f, ?_, le_refl _, ?_, ?_⟩
    · rw [hcons]
      simp [hef]
    · simpa using hes
    · simp
  · obtain ⟨o0, hh⟩ : ∃ o0, old.head? = some o0 := by
      cases hold2 : old with
      | nil => exact absurd hold2 holdnil
      | cons a t => exact ⟨a, rfl⟩
    have hcf : contigFrom o0.index old = true := contiguousB_head hcontig hh
    obtain ⟨eH, hgl, hfle⟩ : ∃ eH, old.getLast? = some eH ∧ f ≤ eH.index + 1 := by
      rcases hhole with h0 | h0
      · exact absurd h0 holdnil
      · exact h0
    have hlg : eH.index + 1 = o0.index + old.length := contigFrom_getLast hcf hgl
    by_cases hf0 : o0.index ≤ f
    · -- the kept prefix is `take (f - o0.index) old`
      have hkeq : old.filter (fun e => decide (e.index < f))
          = old.take (f - o0.index) := by
        rw [contigFrom_take_eq_filter hcf (f - o0.index)]
        have hix : o0.index + (f - o0.index) = f := by omega
        rw [hix]
      have hklen : (old.take (f - o0.index)).length = f - o0.index := by
        rw [List.length_take]
        omega
      refine ⟨o0.index, ?_, hf0, ?_, ?_⟩
      · cases hfe : f - o0.index with
        | zero =>
          rw [hkeq, hfe, List.take_zero, List.nil_append, hcons]
          simp only [List.head?_cons, Option.map_some']
          have : o0.index = f := by omega
          rw [hef, this]
        | succ m =>
          rw [hkeq, hfe]
          cases hold2 : old with
          | nil => exact absurd hold2 holdnil
          | cons a t =>
            have ha : a = o0 := by
              rw [hold2] at hh
              simpa using hh
            subst ha
            simp
      · rw [hkeq]
        apply contigFrom_append (contigFrom_take hcf (f - o0.index))
        rw [hklen]
        have hix : o0.index + (f - o0.index) = f := by omega
        rw [hix]
        exact hes
      · rw [hkeq]
        exact hklen
    · -- the incoming run starts below the old window: everything dropped
      have hkeq : old.filter (fun e => decide (e.index < f)) = [] := by
        rw [List.filter_eq_nil_iff]
        intro x hx
        have := contigFrom_bounds hcf hx
        simp only [decide_eq_true_eq]
        omega
      refine ⟨f, ?_, le_refl _, ?_, ?_⟩
      · rw [hkeq, List.nil_append, hcons]
        simp [hef]
      · rw [hkeq, List.nil_append]
        exact hes
      · rw [hkeq]
        simp

/-- The `fetch_entries_to` scan consumes a whole in-budget slice. -/
theorem fetchWalk_full (maxSize limitIdx cacheLow : Nat) :
    ∀ (l : List Entry) (endIdx fetched : Nat),
    contigFrom (endIdx + cacheLow) l = true →
    limitIdx = endIdx + l.length →
    l ≠ [] →
    fetched + sumSizes l ≤ maxSize →
    fetchWalk maxSize limitIdx cacheLow l endIdx fetched
      = some (endIdx + l.length, fetched + sumSizes l) := by
  intro l
  induction l with
  | nil => intro _ _ _ _ hne _; exact absurd rfl hne
  | cons e rest ih =>
    intro endIdx fetched hc hlim _ hbud
    rw [contigFrom_cons] at hc
    have hsum : sumSizes (e :: rest) = e.size + sumSizes rest := by simp [sumSizes]
    have hcr : contigFrom (endIdx + 1 + cacheLow) rest = true := by
      have h2 := hc.2
      have harr : endIdx + cacheLow + 1 = endIdx + 1 + cacheLow := by omega
      rwa [harr] at h2
    simp only [fetchWalk]
    rw [if_neg (by simp [hc.1])]
    by_cases hrne : rest = []
    · subst hrne
      have hb : fetched + e.size ≤ maxSize := by
        have h := hbud
        simp [sumSizes] at h
        omega
      have hlim1 : limitIdx = endIdx + 1 := by simpa using hlim
      by_cases hfm : fetched + e.size = e.size
      · rw [if_pos hfm, if_neg (by omega)]
        simp [sumSizes]
      · rw [if_neg hfm, if_pos (by omega), if_neg (by omega)]
        simp [sumSizes]
    · have hlim2 : endIdx + 1 < limitIdx := by
        rw [hlim]
        simp only [List.length_cons]
        have : 0 < rest.length := List.length_pos.mpr hrne
        omega
      have hb : fetched + e.size + sumSizes rest ≤ maxSize := by
        rw [hsum] at hbud
        omega
      have hihe := ih (endIdx + 1) (fetched + e.size) hcr
        (by rw [hlim]; simp only [List.length_cons]; omega) hrne (by omega)
      have hgoal : (some ((endIdx + 1) + rest.length,
            fetched + e.size + sumSizes rest) : Option (Nat × Nat))
          = some (endIdx + (e :: rest).length, fetched + sumSizes (e :: rest)) := by
        rw [hsum]
        simp only [List.length_cons, Option.some.injEq, Prod.mk.injEq]
        constructor <;> omega
      by_cases hfm : fetched + e.size = e.size
      · rw [if_pos hfm, if_pos ⟨by omega, hlim2⟩, hihe]
        exact hgoal
      · rw [if_neg hfm, if_pos (by omega), if_pos hlim2, hihe]
        exact hgoal

/-- `fetch_entries_to` reads only the entry window, so caches differing
only in their counters or capacities fetch identically. -/
theorem fetchEntriesTo_cache_congr (c c' : EntryCache) (hcc : c.cache = c'.cache)
    (lo hi fetched maxSize : Nat) :
    fetchEntriesTo c lo hi fetched maxSize
      = fetchEntriesTo c' lo hi fetched maxSize := by
  unfold fetchEntriesTo
  rw [hcc]

/-- The cache tail of `entries` on a successful fetch. -/
theorem entriesTail_eq (s1 : EntryStorage) (pre : List Entry)
    (beginIdx high maxSize : Nat) (out : List Entry)
    (hft : fetchEntriesTo (hitInc s1).cache beginIdx high (sumSizes pre) maxSize
      = some out) :
    entriesTail s1 pre beginIdx high maxSize
      = some (hitInc s1, .ok (pre ++ out)) := by
  unfold entriesTail
  simp only []
  rw [hft]

/-- Reading the whole in-budget suffix `[lo, cache_high + 1)` from the
cache returns exactly that suffix. -/
theorem fetchEntriesTo_suffix (c : EntryCache) (lo hi maxSize : Nat) (e0 : Entry)
    (hh : c.cache.head? = some e0)
    (hcf : contigFrom e0.index c.cache = true)
    (hlo : e0.index ≤ lo) (hlt : lo < hi)
    (hhi : hi = e0.index + c.cache.length)
    (hbud : sumSizes (c.cache.drop (lo - e0.index)) ≤ maxSize) :
    fetchEntriesTo c lo hi 0 maxSize = some (c.cache.drop (lo - e0.index)) := by
  have hlend : (c.cache.drop (lo - e0.index)).length
      = c.cache.length - (lo - e0.index) := by simp
  have hslice_ne : c.cache.drop (lo - e0.index) ≠ [] := by
    intro h0
    rw [h0] at hlend
    simp at hlend
    omega
  have hcd : contigFrom ((lo - e0.index) + e0.index)
      (c.cache.drop (lo - e0.index)) = true := by
    have h1 := contigFrom_drop hcf (lo - e0.index)
    have harr : e0.index + (lo - e0.index) = (lo - e0.index) + e0.index := by omega
    rwa [harr] at h1
  have hlimit : hi - e0.index
      = (lo - e0.index) + (c.cache.drop (lo - e0.index)).length := by
    rw [hlend]
    omega
  have hw := fetchWalk_full maxSize (hi - e0.index) e0.index
    (c.cache.drop (lo - e0.index)) (lo - e0.index) 0 hcd hlimit hslice_ne
    (by omega)
  unfold fetchEntriesTo
  rw [if_neg (by omega)]
  rw [hh]
  simp only []
  rw [if_neg (by omega), if_neg (by omega)]
  rw [hw]
  simp only []
  rw [if_pos (Or.inl hlimit.symm)]
  have htk : ((lo - e0.index) + (c.cache.drop (lo - e0.index)).length)
      - (lo - e0.index) = (c.cache.drop (lo - e0.index)).length := by omega
  rw [htk, List.take_length]

/-- C3: appending a consecutive non-empty run `[e_i, ..., e_j]` that
fits the cache tail without a hole (with `i` above the truncated index)
and then reading `entries(i, j + 1, unlimited)` returns `Ok` of exactly
the appended entries; the read is served entirely from the cache, so the
result is the same whether or not the context allows async fetching. -/
theorem append_entries_round_trip (s : EntryStorage) (es : List Entry) (f : Nat)
    (s' : EntryStorage) (wt : WriteTaskModel) (canAsync : Bool)
    (hne : es ≠ [])
    (hesc : contigFrom f es = true)
    (hcache : contiguousB s.cache.cache = true)
    (htrunc : s.truncatedIndex < f)
    (hsum : sumSizes es ≤ UMAX)
    (happ : storageAppend s es = some (s', wt)) :
    (entriesFn s' f (f + es.length) UMAX canAsync).map (fun r => r.2)
      = some (RaftRes.ok es) := by
  obtain ⟨ef, erest, hcons⟩ : ∃ ef erest, es = ef :: erest := by
    cases hes' : es with
    | nil => exact absurd hes' hne
    | cons a t => exact ⟨a, t, rfl⟩
  have hf : es.head? = some ef := by rw [hcons]; rfl
  have hef : ef.index = f := by
    have h := hesc
    rw [hcons, contigFrom_cons] at h
    exact h.1
  have heslen : 0 < es.length := List.length_pos.mpr hne
  cases hgl : es.getLast? with
  | none => exact absurd (List.getLast?_eq_none_iff.mp hgl) hne
  | some eL =>
    have heL : eL.index + 1 = f + es.length := contigFrom_getLast hesc hgl
    unfold storageAppend at happ
    have hisE : es.isEmpty = false := by
      rw [hcons]
      rfl
    rw [hisE] at happ
    simp only [Bool.false_eq_true, if_false] at happ
    rw [hgl] at happ
    simp only [] at happ
    cases hca : cacheAppend s.cache es with
    | none => rw [hca] at happ; cases happ
    | some p =>
      rw [hca] at happ
      simp only [] at happ
      cases happ
      have hshape : p.1.cache
          = s.cache.cache.filter (fun e => decide (e.index < f)) ++ es := by
        have h := cacheAppend_shape s.cache es ef p.1 p.2 hcache hf (by rw [hca])
        rwa [hef] at h
      have hhole : s.cache.cache = []
          ∨ ∃ eH, s.cache.cache.getLast? = some eH ∧ f ≤ eH.index + 1 := by
        cases hglc : s.cache.cache.getLast? with
        | none => exact Or.inl (List.getLast?_eq_none_iff.mp hglc)
        | some eH =>
          refine Or.inr ⟨eH, rfl, ?_⟩
          have h := cacheAppend_no_hole s.cache es p.1 p.2 ef eH hf hglc
            (by rw [hca])
          omega
      obtain ⟨cl, hhead, hclle, hcontig', hklen⟩ :=
        kept_shape s.cache.cache es f hcache hesc hne hhole
      obtain ⟨e0', hh', hidx'⟩ : ∃ e0',
          (s.cache.cache.filter (fun e => decide (e.index < f)) ++ es).head?
            = some e0' ∧ e0'.index = cl := by
        cases hhh : (s.cache.cache.filter (fun e => decide (e.index < f))
            ++ es).head? with
        | none => rw [hhh] at hhead; simp at hhead
        | some x =>
          rw [hhh] at hhead
          simp only [Option.map_some', Option.some.injEq] at hhead
          exact ⟨x, rfl, hhead⟩
      have hplen : p.1.cache.length = (f - cl) + es.length := by
        rw [hshape, List.length_append, hklen]
      have hchk : checkRange
          { s with cache := p.1, lastIndex := eL.index, lastTerm := eL.term }
          f (f + es.length) = none := by
        unfold checkRange
        simp only []
        rw [if_neg (by omega), if_neg (by omega), if_neg (by omega)]
      unfold entriesFn
      rw [hchk]
      simp only []
      rw [if_neg (by omega)]
      have hclow : cacheLowOf p.1 = cl := by
        rw [← hidx']
        exact cacheLowOf_eq (by rw [hshape]; exact hh')
      rw [hclow]
      rw [if_neg (by omega), if_neg (by omega)]
      have hdrop : p.1.cache.drop (f - e0'.index) = es := by
        rw [hidx', hshape, ← hklen]
        exact List.drop_left _ _
      have hfetch : fetchEntriesTo p.1 f (f + es.length) 0 UMAX = some es := by
        have h := fetchEntriesTo_suffix p.1 f (f + es.length) UMAX e0'
          (by rw [hshape]; exact hh')
          (by rw [hshape, hidx']; exact hcontig')
          (by omega) (by omega)
          (by rw [hidx', hplen]; omega)
          (by rw [hdrop]; exact hsum)
        rwa [hdrop] at h
      rw [entriesTail_eq _ [] f (f + es.length) UMAX es ?_]
      · simp
      · exact (fetchEntriesTo_cache_congr _ p.1 rfl f (f + es.length)
          (sumSizes []) UMAX).trans hfetch

/-- The storage after appending `[E(1)]` to an empty one. -/
def storageC3 : EntryStorage :=
  { emptyStorage with
    cache := { initialCache with cache := [entC 1 1], cacheCap := 1 },
    lastIndex := 1, lastTerm := 1 }

theorem append_entries_round_trip_witness :
    storageAppend emptyStorage [entC 1 1]
        = some (storageC3, ⟨[entC 1 1], some (2, 1)⟩) ∧
      (entriesFn storageC3 1 (1 + [entC 1 1].length) UMAX false).map (fun r => r.2)
        = some (RaftRes.ok [entC 1 1]) := by
  refine ⟨rfl, ?_⟩
  exact append_entries_round_trip emptyStorage [entC 1 1] 1 storageC3
    ⟨[entC 1 1], some (2, 1)⟩ false (by decide) (by decide) (by decide)
    (by decide) (by decide) rfl

/-- C1 counterexample: on the persisted cache `[E(3), E(4), E(5)]`
(`cache_high = 5`, `persisted = 5`), `evict_entry_cache(half = false)`
leaves the cache empty: the entry at `cache_high` does not remain even
though the persisted clamp would permit keeping it, contradicting the
claimed drain point `cache_high - 1`. -/
theorem evict_entry_cache_non_half_cex :
    storageC1.cache.cache.getLast? = some (entC 5 4) ∧
      storageC1.cache.persisted = 5 ∧
      (evictEntryCache storageC1 false).map (fun s' => s'.cache.cache) = some [] ∧
      ¬ ((evictEntryCache storageC1 false).map
          (fun s' => decide (entC 5 4 ∈ s'.cache.cache)) = some true) := by
  refine ⟨rfl, rfl, rfl, ?_⟩
  intro h
  simp only [show evictEntryCache storageC1 false
      = some { storageC1 with cache :=
          { storageC1.cache with cache := [], cacheCap := 3 } } from rfl] at h
  simp at h

end Tikv
